import Mathlib

set_option maxHeartbeats 1000000

/-!
Verification of the reverse-mode automatic-differentiation graph pass of
`src/glow/Graph/Grad.cpp` (the `GraphGradMapper` helper and the
`glow::generateGradientNodes` function).

The embedding represents graph nodes in an append-only arena (`store`), a node
identifier being its index in the arena.  A `NodeValue` is a (node id, output
index) pair, exactly as in the source.  The live graph keeps lists of node ids
and variable ids into the arena, so that "creating" a node (C++ `new`) and
"adding it to the graph" (`Graph::addNode` / `Graph::addVar`) are separate
steps, as they are in the source.

Collaborator code that is not part of this translation unit (the
`PostOrderVisitor` of `Graph/Utils.h`, `Graph::createArithmetic`,
`Graph::createSave`, the per-kind `getGrad` node builders, and the
`NodeValue`-keyed map of `GraphGradMapper`) is modelled from the
specification; each such definition carries a doc comment saying so.
-/

namespace Glow

/-- A value reference: a node identifier together with an output index.  This
mirrors `NodeValue`, the unit of identity used for gradient lookup. -/
structure NodeValue where
  node : Nat
  resNo : Nat
deriving DecidableEq, Repr

/-- The arithmetic modes of `ArithmeticNode`; `Grad.cpp` only builds `Add`. -/
inductive ArithMode where
  | add
  | mul
deriving DecidableEq, Repr

/-- Variable initialization policies (`Variable::InitKind`); the pass only uses
`Broadcast` (with value 0) for the accumulators it creates. -/
inductive InitKind where
  | broadcast
  | xavier
deriving DecidableEq, Repr

/-- Operator-kind tags (`Kinded::Kind`).  The kinds named in the dispatcher of
`generateGradientNodes` appear literally; `genericGrad` tags a backward node
built by a per-kind `getGrad` rule; `other` stands for any further operator
kind with no registered differentiation rule. -/
inductive NodeKind where
  | var (train : Bool) (ik : InitKind)
  | convolution
  | pool
  | fullyConnected
  | batchNormalization
  | localResponseNormalization
  | softMax
  | regression
  | arithmetic (mode : ArithMode)
  | relu
  | sigmoid
  | tanh
  | save
  | reshape (dims : List Nat)
  | transpose (shuffle : List Nat)
  | slice (start : List Nat)
  | concat (dim : Nat)
  | zero
  | insertTensor (start : List Nat)
  | sgd (l1 l2 lr mom : Rat) (batchSize : Nat)
  | genericGrad (src : NodeKind)
  | other (tag : Nat)
deriving DecidableEq, Repr

/-- A tensor type, reduced to its dimension vector (all that the pass reads). -/
abbrev Ty := List Nat

/-- The zero-sized placeholder type `Graph::getVoidTy()`. -/
def voidTy : Ty := []

/-- A graph node: name, operator kind, operand value references, result type. -/
structure GNode where
  name : String
  kind : NodeKind
  inputs : List NodeValue
  ty : Ty
deriving DecidableEq, Repr

/-- The gradient map of `GraphGradMapper`: an association list from value
reference to the currently accumulated gradient value reference.  Modelled from
the spec: the underlying `NodeValueMap` (count/get/insert) is not part of this
translation unit; inserting an existing key replaces its binding. -/
abbrev GradMap := List (NodeValue × NodeValue)

/-- Lookup in the gradient map (`map_.get`). -/
def mapGet (m : GradMap) (v : NodeValue) : Option NodeValue :=
  match m with
  | [] => none
  | (k, g) :: rest => if k = v then some g else mapGet rest v

/-- Insertion into the gradient map (`map_.insert`); the new binding shadows
any previous binding of the same key. -/
def mapInsert (m : GradMap) (v g : NodeValue) : GradMap :=
  (v, g) :: m

/-- `GraphGradMapper::hasGradient`. -/
def hasGradient (m : GradMap) (v : NodeValue) : Bool :=
  (mapGet m v).isSome

/-- The graph container: the arena of all nodes ever created, the ids of the
live operation nodes (`getNodes()`), the ids of the live variables
(`getVars()`), and the variable-to-gradient-variable association filled by
`addGradientVariable`. -/
structure Graph where
  store : List GNode
  nodes : List Nat
  vars : List Nat
  gradVarMap : List (Nat × Nat)
deriving DecidableEq, Repr

/-- The compilation-mode enumeration. -/
inductive CompilationMode where
  | infer
  | train
  | trainDebug
deriving DecidableEq, Repr

/-- The training configuration record. -/
structure TrainingConfig where
  learningRate : Rat
  momentum : Rat
  L1Decay : Rat
  L2Decay : Rat
  batchSize : Nat
deriving DecidableEq, Repr

/-- The mutable state threaded through one invocation of the pass: the node
arena, the gradient map, the staging list of nodes to append (`toAppend`), the
staging list of variables to append (`newVars`), and the gradient-variable
associations recorded so far. -/
structure PassState where
  store : List GNode
  map : GradMap
  toAppend : List Nat
  newVars : List Nat
  gradVarMap : List (Nat × Nat)
deriving DecidableEq, Repr

/-- Create a node in the arena (C++ `new`), returning its id. -/
def createNode (st : PassState) (g : GNode) : PassState × Nat :=
  ({ st with store := st.store ++ [g] }, st.store.length)

/-- Create a node and stage it for later insertion (`toAppend.push_back`). -/
def stageNode (st : PassState) (g : GNode) : PassState × Nat :=
  let p := createNode st g
  ({ p.1 with toAppend := p.1.toAppend ++ [p.2] }, p.2)

/-- The type of the node a value reference points at (the pass reads operand
types through `getType()` / `dims()`). -/
def nvTy (store : List GNode) (v : NodeValue) : Ty :=
  match store.get? v.node with
  | some n => n.ty
  | none => voidTy

/-- The name of a node. -/
def nodeName (store : List GNode) (v : Nat) : String :=
  match store.get? v with
  | some n => n.name
  | none => ""

/-- Whether a variable id is marked trainable (`Variable::isTraining`). -/
def isTraining (store : List GNode) (v : Nat) : Bool :=
  match store.get? v with
  | some n =>
    match n.kind with
    | .var t _ => t
    | _ => false
  | none => false

/-- The method `GraphGradMapper::addGradient`: if the value has a registered
gradient, build an elementwise-sum (`ArithmeticNode::Mode::Add`) node named
"updateGrad" over the current gradient and the incoming one and register it;
otherwise register the incoming gradient directly.  The sum node is built by
`Graph::createArithmetic`, whose body is not in this translation unit.
Modelled from the spec: all nodes created during the sweep are staged and
appended to the graph after the sweep completes (spec section 4.5), so the
created sum node is staged here. -/
def addGradient (st : PassState) (v g : NodeValue) : PassState :=
  match mapGet st.map v with
  | some curr =>
    let p := stageNode st
      { name := "updateGrad", kind := .arithmetic .add, inputs := [curr, g],
        ty := nvTy st.store curr }
    { p.1 with map := mapInsert p.1.map v ⟨p.2, 0⟩ }
  | none => { st with map := mapInsert st.map v g }

/-- The reverse shuffle computed by the `TransposeNode` case: start from a copy
of the forward shuffle, then for each axis index i write i at position
shuffle[i]. -/
def reverseShuffle (shuffle : List Nat) : List Nat :=
  (List.range shuffle.length).foldl (fun acc i => acc.set (shuffle.getD i 0) i) shuffle

/-- The failure modes of the pass: a `getGradient` lookup with no registered
entry, an operator kind with no differentiation rule (the `assert(false);
glow_unreachable()` branch), and a dangling or malformed node reference. -/
inductive Err where
  | missingGradient
  | unsupportedKind
  | danglingNode
deriving DecidableEq, Repr

/-- Modelled from the spec: the per-kind `getGrad` node builders (invoked by
the `CONVERT_TO_GRAD_NODE` macro) are defined outside this translation unit.
Per spec section 4.3, each rule looks up the gradient of the node's output via
`getGradient`, constructs the backward node implementing the operator's local
derivative, and registers the resulting gradient for each of the node's inputs
via `addGradient`; the built node is pushed onto the staging list. -/
def genericGetGrad (st : PassState) (n : Nat) (node : GNode) : Except Err PassState :=
  match mapGet st.map ⟨n, 0⟩ with
  | none => .error .missingGradient
  | some og =>
    let p := stageNode st
      { name := node.name, kind := .genericGrad node.kind,
        inputs := og :: node.inputs, ty := node.ty }
    .ok (node.inputs.foldl (fun s i => addGradient s i ⟨p.2, 0⟩) p.1)

/-- One iteration of the inner loop of the `ConcatNode` case: build a
`SliceNode` named "extract" of the output gradient at the current offsets,
typed with the input's type, advance the running offset along the
concatenation axis by the input's extent, and register the slice as the
input's gradient.  Note the source never pushes these slice nodes onto
`toAppend`. -/
def concatStep (dim : Nat) (og : NodeValue) (acc : PassState × List Nat)
    (inp : NodeValue) : PassState × List Nat :=
  let ity := nvTy acc.1.store inp
  let p := createNode acc.1 { name := "extract", kind := .slice acc.2, inputs := [og], ty := ity }
  let offsets := acc.2.set dim (acc.2.getD dim 0 + ity.getD dim 0)
  (addGradient p.1 inp ⟨p.2, 0⟩, offsets)

/-- The body of the reverse-sweep loop of `generateGradientNodes` for a single
node: skip variables; dispatch the kinds covered by `CONVERT_TO_GRAD_NODE` to
their per-kind rule; handle `SaveNode`, `ReshapeNode`, `TransposeNode`,
`SliceNode` and `ConcatNode` inline exactly as the source does; any other kind
reaches the `assert(false); glow_unreachable()` branch. -/
def stepNode (st : PassState) (n : Nat) : Except Err PassState :=
  match st.store.get? n with
  | none => .error .danglingNode
  | some node =>
    match node.kind with
    | .var _ _ => .ok st
    | .convolution => genericGetGrad st n node
    | .pool => genericGetGrad st n node
    | .fullyConnected => genericGetGrad st n node
    | .batchNormalization => genericGetGrad st n node
    | .localResponseNormalization => genericGetGrad st n node
    | .softMax => genericGetGrad st n node
    | .regression => genericGetGrad st n node
    | .arithmetic _ => genericGetGrad st n node
    | .relu => genericGetGrad st n node
    | .sigmoid => genericGetGrad st n node
    | .tanh => genericGetGrad st n node
    | .save =>
      match node.inputs with
      | [inp, v] =>
        let p := stageNode st
          { name := node.name, kind := .zero, inputs := [], ty := nvTy st.store inp }
        .ok (addGradient (addGradient p.1 inp ⟨p.2, 0⟩) v ⟨p.2, 0⟩)
      | _ => .error .danglingNode
    | .reshape _ =>
      match node.inputs with
      | [inp] =>
        match mapGet st.map ⟨n, 0⟩ with
        | none => .error .missingGradient
        | some og =>
          let ity := nvTy st.store inp
          let p := stageNode st
            { name := node.name, kind := .reshape ity, inputs := [og], ty := ity }
          .ok (addGradient p.1 inp ⟨p.2, 0⟩)
      | _ => .error .danglingNode
    | .transpose shuffle =>
      match node.inputs with
      | [inp] =>
        match mapGet st.map ⟨n, 0⟩ with
        | none => .error .missingGradient
        | some og =>
          let p := stageNode st
            { name := node.name, kind := .transpose (reverseShuffle shuffle),
              inputs := [og], ty := nvTy st.store inp }
          .ok (addGradient p.1 inp ⟨p.2, 0⟩)
      | _ => .error .danglingNode
    | .slice start =>
      match node.inputs with
      | [inp] =>
        match mapGet st.map ⟨n, 0⟩ with
        | none => .error .missingGradient
        | some og =>
          let ity := nvTy st.store inp
          let p := stageNode st { name := "expand", kind := .zero, inputs := [], ty := ity }
          let q := stageNode p.1
            { name := "insert.slice.grad", kind := .insertTensor start,
              inputs := [⟨p.2, 0⟩, og], ty := ity }
          .ok (addGradient q.1 inp ⟨q.2, 0⟩)
      | _ => .error .danglingNode
    | .concat dim =>
      match mapGet st.map ⟨n, 0⟩ with
      | none => .error .missingGradient
      | some og =>
        .ok (node.inputs.foldl (concatStep dim og) (st, List.replicate node.ty.length 0)).1
    | _ => .error .unsupportedKind

/-- Modelled from the spec: the `PostOrderVisitor` of `Graph/Utils.h` is not
part of this translation unit.  Per spec section 4.2 it produces a
dependency-first (post) order: a depth-first visit that emits a node only
after emitting everything it depends on, skipping nodes already emitted.  The
first argument is recursion fuel. -/
def visitPost (store : List GNode) : Nat → List Nat → Nat → List Nat
  | 0, acc, _ => acc
  | fuel + 1, acc, n =>
    if n ∈ acc then acc
    else
      match store.get? n with
      | none => acc
      | some node =>
        (node.inputs.foldl (fun a i => visitPost store fuel a i.node) acc) ++ [n]

/-- The traversal of `generateGradientNodes`: visit every variable, then every
operation node, accumulating one shared post order. -/
def postOrder (G : Graph) : List Nat :=
  let acc := G.vars.foldl (fun a v => visitPost G.store G.store.length a v) []
  G.nodes.foldl (fun a n => visitPost G.store G.store.length a n) acc

/-- Sequential processing of a list of node ids by a fallible step, stopping at
the first error (the shape of both loops of `generateGradientNodes`). -/
def foldSteps (f : PassState → Nat → Except Err PassState) :
    PassState → List Nat → Except Err PassState
  | st, [] => .ok st
  | st, n :: rest =>
    match f st n with
    | .error e => .error e
    | .ok st1 => foldSteps f st1 rest

/-- Modelled from the spec: `Graph::createSave` is not part of this translation
unit.  It constructs a graph-output (save) node exposing the given value
together with its destination variable (`saveNode->getOutput()`), both named by
the caller; per spec section 4.5 the created node and variable are staged and
appended after the sweep.  Returns the destination variable's id. -/
def createSave (st : PassState) (name : String) (val : NodeValue) : PassState × Nat :=
  let ty := nvTy st.store val
  let p := createNode st { name := name, kind := .var false .broadcast, inputs := [], ty := ty }
  let st2 := { p.1 with newVars := p.1.newVars ++ [p.2] }
  let q := createNode st2 { name := name, kind := .save, inputs := [val, ⟨p.2, 0⟩], ty := ty }
  ({ q.1 with toAppend := q.1.toAppend ++ [q.2] }, p.2)

/-- The debug-snapshot part of the per-variable loop of
`generateGradientNodes`: in TrainDebug mode, for a variable with a registered
gradient, save a copy of the gradient under the name "_grad_" + name
(`G.createSave`) and record the association (`G.addGradientVariable`);
otherwise do nothing. -/
def debugSave (mode : CompilationMode) (st : PassState) (v : Nat) : PassState :=
  if (mode == CompilationMode.trainDebug) && hasGradient st.map ⟨v, 0⟩ then
    match mapGet st.map ⟨v, 0⟩ with
    | some g =>
      let p := createSave st ("_grad_" ++ nodeName st.store v) g
      { p.1 with gradVarMap := p.1.gradVarMap ++ [(v, p.2)] }
    | none => st
  else st

/-- The body of the per-variable loop of `generateGradientNodes`: take the
debug snapshot when applicable, skip variables not in training mode, and
otherwise create the "gsum" momentum accumulator (same-shaped when the
momentum coefficient is positive, the void type otherwise) and the `SGDNode`
bound to the gradient, the variable, the accumulator, and the configuration
hyperparameters. -/
def varStep (conf : TrainingConfig) (mode : CompilationMode) (st : PassState)
    (v : Nat) : Except Err PassState :=
  let st1 := debugSave mode st v
  if !(isTraining st1.store v) then .ok st1
  else
    let ty := if conf.momentum > 0 then nvTy st1.store ⟨v, 0⟩ else voidTy
    let p := createNode st1 { name := "gsum", kind := .var false .broadcast, inputs := [], ty := ty }
    let st3 := { p.1 with newVars := p.1.newVars ++ [p.2] }
    match mapGet st3.map ⟨v, 0⟩ with
    | none => .error .missingGradient
    | some g =>
      let q := createNode st3
        { name := nodeName st.store v,
          kind := .sgd conf.L1Decay conf.L2Decay conf.learningRate conf.momentum conf.batchSize,
          inputs := [g, ⟨v, 0⟩, ⟨p.2, 0⟩], ty := nvTy st.store ⟨v, 0⟩ }
      .ok { q.1 with toAppend := q.1.toAppend ++ [q.2] }

/-- The pass `glow::generateGradientNodes`: build the post order over the
graph's variables and nodes, consume it in reverse through the dispatcher,
then run the per-variable update-synthesis loop, and finally append all staged
nodes and then all staged variables to the graph. -/
def generateGradientNodes (G : Graph) (conf : TrainingConfig) (mode : CompilationMode) :
    Except Err Graph :=
  let st0 : PassState :=
    { store := G.store, map := [], toAppend := [], newVars := [], gradVarMap := G.gradVarMap }
  match foldSteps stepNode st0 (postOrder G).reverse with
  | .error e => .error e
  | .ok st1 =>
    match foldSteps (varStep conf mode) st1 G.vars with
    | .error e => .error e
    | .ok st2 =>
      .ok { store := st2.store, nodes := G.nodes ++ st2.toAppend,
            vars := G.vars ++ st2.newVars, gradVarMap := st2.gradVarMap }

/-- Modelled from the spec: the numeric meaning of gradient expressions
(section 4.1: an `Add` arithmetic node computes the elementwise sum of its two
operands).  Every other node is a leaf whose value is supplied by the
environment.  The first argument is recursion fuel. -/
def evalNV (store : List GNode) (env : NodeValue → List Int) :
    Nat → NodeValue → Option (List Int)
  | 0, _ => none
  | fuel + 1, v =>
    match store.get? v.node with
    | some node =>
      match node.kind, node.inputs with
      | .arithmetic .add, [a, b] =>
        match evalNV store env fuel a, evalNV store env fuel b with
        | some x, some y => some (List.zipWith (· + ·) x y)
        | _, _ => none
      | _, _ => some (env v)
    | none => some (env v)

/-- Decidable well-formedness of the arena: every operand of a node refers to a
node created strictly earlier (the forward graph is acyclic and built
bottom-up). -/
def wfStoreB (store : List GNode) : Bool :=
  (List.range store.length).all fun n =>
    match store.get? n with
    | some node => node.inputs.all fun i => i.node < n
    | none => true

/-- Decidable validity of a list of ids against the arena. -/
def idsValidB (store : List GNode) (l : List Nat) : Bool :=
  l.all (· < store.length)

/-- Whether a kind is a variable kind. -/
def isVarKind : NodeKind → Bool
  | .var _ _ => true
  | _ => false

/-- The operator kinds with a registered differentiation rule in the
dispatcher of `generateGradientNodes`. -/
def isDiffKind : NodeKind → Bool
  | .convolution => true
  | .pool => true
  | .fullyConnected => true
  | .batchNormalization => true
  | .localResponseNormalization => true
  | .softMax => true
  | .regression => true
  | .arithmetic _ => true
  | .relu => true
  | .sigmoid => true
  | .tanh => true
  | .save => true
  | .reshape _ => true
  | .transpose _ => true
  | .slice _ => true
  | .concat _ => true
  | _ => false

/-- Decidable seed coverage: every non-variable, non-save node of the post
order has, somewhere in the post order, a non-variable consumer of its first
output.  This is the reachable-from-a-declared-output condition under which
every backward rule finds its output gradient registered. -/
def seedCoveredB (G : Graph) : Bool :=
  (postOrder G).all fun n =>
    match G.store.get? n with
    | some node =>
      if isVarKind node.kind || (node.kind == .save) then true
      else
        (postOrder G).any fun m =>
          match G.store.get? m with
          | some mn => !(isVarKind mn.kind) && decide (NodeValue.mk n 0 ∈ mn.inputs)
          | none => false
    | none => true

/-! ### Infrastructure lemmas about the state primitives -/

/-- Decidable equality of `Except` results. -/
instance {ε α : Type} [DecidableEq ε] [DecidableEq α] : DecidableEq (Except ε α) := fun a b =>
  match a, b with
  | .ok x, .ok y =>
    if h : x = y then .isTrue (by rw [h]) else .isFalse (by intro hc; cases hc; exact h rfl)
  | .error e, .error f =>
    if h : e = f then .isTrue (by rw [h]) else .isFalse (by intro hc; cases hc; exact h rfl)
  | .ok _, .error _ => .isFalse (by intro hc; cases hc)
  | .error _, .ok _ => .isFalse (by intro hc; cases hc)

theorem mapGet_cons (k g : NodeValue) (m : GradMap) (w : NodeValue) :
    mapGet ((k, g) :: m) w = if k = w then some g else mapGet m w := rfl

theorem mapGet_insert_self (m : GradMap) (v g : NodeValue) :
    mapGet (mapInsert m v g) v = some g := by
  simp [mapInsert, mapGet_cons]

theorem mapGet_insert_ne (m : GradMap) (v g w : NodeValue) (h : v ≠ w) :
    mapGet (mapInsert m v g) w = mapGet m w := by
  simp [mapInsert, mapGet_cons, h]

/-- Monotone evolution of the pass state: the arena and all three staging
collections only grow, and registered gradients stay registered. -/
def Evolves (s t : PassState) : Prop :=
  (∃ e, t.store = s.store ++ e) ∧
  (∃ e, t.toAppend = s.toAppend ++ e) ∧
  (∃ e, t.newVars = s.newVars ++ e) ∧
  (∃ e, t.gradVarMap = s.gradVarMap ++ e) ∧
  ∀ v, (mapGet s.map v).isSome = true → (mapGet t.map v).isSome = true

theorem evolves_refl (s : PassState) : Evolves s s :=
  ⟨⟨[], by simp⟩, ⟨[], by simp⟩, ⟨[], by simp⟩, ⟨[], by simp⟩, fun _ h => h⟩

theorem evolves_trans {a b c : PassState} (h1 : Evolves a b) (h2 : Evolves b c) :
    Evolves a c := by
  obtain ⟨⟨e1, he1⟩, ⟨e2, he2⟩, ⟨e3, he3⟩, ⟨e4, he4⟩, hm⟩ := h1
  obtain ⟨⟨f1, hf1⟩, ⟨f2, hf2⟩, ⟨f3, hf3⟩, ⟨f4, hf4⟩, hm'⟩ := h2
  exact ⟨⟨e1 ++ f1, by simp [hf1, he1]⟩, ⟨e2 ++ f2, by simp [hf2, he2]⟩,
    ⟨e3 ++ f3, by simp [hf3, he3]⟩, ⟨e4 ++ f4, by simp [hf4, he4]⟩,
    fun v h => hm' v (hm v h)⟩

theorem get?_of_storeExt {s : List GNode} {e : List GNode} {n : Nat} {x : GNode}
    (h : s.get? n = some x) : (s ++ e).get? n = some x := by
  have hn : n < s.length := by
    by_contra hc
    rw [List.get?_eq_none.2 (Nat.le_of_not_lt hc)] at h
    cases h
  rw [List.get?_append hn]; exact h

theorem stageNode_fst_store (st : PassState) (g : GNode) :
    (stageNode st g).1.store = st.store ++ [g] := rfl

theorem stageNode_fst_map (st : PassState) (g : GNode) :
    (stageNode st g).1.map = st.map := rfl

theorem stageNode_fst_toAppend (st : PassState) (g : GNode) :
    (stageNode st g).1.toAppend = st.toAppend ++ [st.store.length] := rfl

theorem stageNode_snd (st : PassState) (g : GNode) :
    (stageNode st g).2 = st.store.length := rfl

theorem stageNode_evolves (st : PassState) (g : GNode) : Evolves st (stageNode st g).1 :=
  ⟨⟨[g], rfl⟩, ⟨[st.store.length], rfl⟩, ⟨[], by simp [stageNode, createNode]⟩,
    ⟨[], by simp [stageNode, createNode]⟩, fun _ h => h⟩

theorem createNode_evolves (st : PassState) (g : GNode) : Evolves st (createNode st g).1 :=
  ⟨⟨[g], rfl⟩, ⟨[], by simp [createNode]⟩, ⟨[], by simp [createNode]⟩,
    ⟨[], by simp [createNode]⟩, fun _ h => h⟩

theorem addGradient_self (st : PassState) (v g : NodeValue) :
    (mapGet (addGradient st v g).map v).isSome = true := by
  unfold addGradient
  cases h : mapGet st.map v <;> simp [h, stageNode_fst_map, mapGet_insert_self]

theorem addGradient_get_ne (st : PassState) (v g w : NodeValue) (h : v ≠ w) :
    mapGet (addGradient st v g).map w = mapGet st.map w := by
  unfold addGradient
  cases hc : mapGet st.map v <;> simp [hc, stageNode_fst_map, mapGet_insert_ne _ _ _ _ h]

theorem addGradient_evolves (st : PassState) (v g : NodeValue) :
    Evolves st (addGradient st v g) := by
  unfold addGradient
  cases hc : mapGet st.map v with
  | none =>
    exact ⟨⟨[], by simp⟩, ⟨[], by simp⟩, ⟨[], by simp⟩, ⟨[], by simp⟩,
      fun w h => by
        by_cases hw : v = w
        · subst hw; simp [mapGet_insert_self]
        · simpa [mapGet_insert_ne _ _ _ _ hw] using h⟩
  | some curr =>
    refine ⟨⟨_, rfl⟩, ⟨_, rfl⟩, ⟨[], by simp [stageNode, createNode]⟩,
      ⟨[], by simp [stageNode, createNode]⟩, fun w h => ?_⟩
    by_cases hw : v = w
    · subst hw; simp [stageNode_fst_map, mapGet_insert_self]
    · simpa [stageNode_fst_map, mapGet_insert_ne _ _ _ _ hw] using h

theorem addGradient_map_mono (st : PassState) (v g w : NodeValue)
    (h : (mapGet st.map w).isSome = true) :
    (mapGet (addGradient st v g).map w).isSome = true :=
  (addGradient_evolves st v g).2.2.2.2 w h

/-- A fold whose every step appends to its accumulator appends overall. -/
theorem foldlExt {β : Type} (f : List Nat → β → List Nat)
    (hf : ∀ a x, ∃ e, f a x = a ++ e) :
    ∀ (l : List β) (acc : List Nat), ∃ e, l.foldl f acc = acc ++ e := by
  intro l
  induction l with
  | nil => exact fun acc => ⟨[], by simp⟩
  | cons x rest ih =>
    intro acc
    obtain ⟨e1, he1⟩ := hf acc x
    obtain ⟨e2, he2⟩ := ih (f acc x)
    exact ⟨e1 ++ e2, by rw [List.foldl_cons, he2, he1, List.append_assoc]⟩


/-! ### The dependency-first property of the post-order traversal -/

/-- Dependency-closedness of an emission list: every operand of an emitted
node is emitted strictly earlier in the list. -/
def Closed (store : List GNode) (l : List Nat) : Prop :=
  ∀ k n node i, l.get? k = some n → store.get? n = some node → i ∈ node.inputs →
    i.node ∈ l.take k

/-- Well-formedness of the arena: every operand refers to a strictly earlier
node (the proposition behind `wfStoreB`). -/
def WfStore (store : List GNode) : Prop :=
  ∀ n node, store.get? n = some node → ∀ i ∈ node.inputs, i.node < n

theorem get?_lt_length {α : Type} {l : List α} {n : Nat} {x : α}
    (h : l.get? n = some x) : n < l.length := by
  by_contra hc
  rw [List.get?_eq_none.2 (Nat.le_of_not_lt hc)] at h
  cases h

theorem wfStoreB_spec {store : List GNode} (h : wfStoreB store = true) : WfStore store := by
  intro n node hget i hi
  have hn : n < store.length := get?_lt_length hget
  have h1 := (List.all_eq_true.1 h) n (List.mem_range.2 hn)
  simp only [wfStoreB, hget] at h1
  have h2 := (List.all_eq_true.1 h1) i hi
  exact of_decide_eq_true h2

theorem closed_nil (store : List GNode) : Closed store [] := by
  intro k n node i hk
  simp at hk

theorem closed_append_single {store : List GNode} {l : List Nat} {n : Nat} {node : GNode}
    (hc : Closed store l) (hget : store.get? n = some node)
    (hin : ∀ i ∈ node.inputs, i.node ∈ l) : Closed store (l ++ [n]) := by
  intro k m mnode i hk hm hi
  rcases Nat.lt_trichotomy k l.length with hlt | heq | hgt
  · rw [List.get?_append hlt] at hk
    rw [List.take_append_of_le_length (Nat.le_of_lt hlt)]
    exact hc k m mnode i hk hm hi
  · subst heq
    rw [List.get?_concat_length] at hk
    cases hk
    rw [List.take_append_of_le_length (Nat.le_refl _), List.take_length]
    rw [hget] at hm
    cases hm
    exact hin i hi
  · have hnone : (l ++ [n]).get? k = none := by
      apply List.get?_eq_none.2
      simp only [List.length_append, List.length_singleton]
      omega
    rw [hnone] at hk
    cases hk

theorem visitPost_succ_none {store : List GNode} {n : Nat} {fuel : Nat} {acc : List Nat}
    (hmem : n ∉ acc) (hget : store.get? n = none) :
    visitPost store (fuel + 1) acc n = acc := by
  rw [List.get?_eq_getElem?] at hget
  simp [visitPost, hmem, hget]

theorem visitPost_succ_some {store : List GNode} {n : Nat} {fuel : Nat} {acc : List Nat}
    {node : GNode} (hmem : n ∉ acc) (hget : store.get? n = some node) :
    visitPost store (fuel + 1) acc n =
      (node.inputs.foldl (fun a i => visitPost store fuel a i.node) acc) ++ [n] := by
  rw [List.get?_eq_getElem?] at hget
  simp [visitPost, hmem, hget]

theorem visitPost_mem {store : List GNode} {n : Nat} {fuel : Nat} {acc : List Nat}
    (hmem : n ∈ acc) : visitPost store fuel acc n = acc := by
  cases fuel with
  | zero => simp [visitPost]
  | succ fuel => simp [visitPost, hmem]

theorem visitPost_extends (store : List GNode) :
    ∀ fuel acc n, ∃ e, visitPost store fuel acc n = acc ++ e := by
  intro fuel
  induction fuel with
  | zero => exact fun acc n => ⟨[], by simp [visitPost]⟩
  | succ fuel ih =>
    intro acc n
    by_cases hmem : n ∈ acc
    · exact ⟨[], by simp [visitPost_mem hmem]⟩
    · cases hget : store.get? n with
      | none => exact ⟨[], by simp [visitPost_succ_none hmem hget]⟩
      | some node =>
        obtain ⟨e, he⟩ := foldlExt (fun a i => visitPost store fuel a i.node)
          (fun a i => ih a i.node) node.inputs acc
        exact ⟨e ++ [n], by rw [visitPost_succ_some hmem hget, he, List.append_assoc]⟩

theorem visitPost_self_mem (store : List GNode) (fuel : Nat) (acc : List Nat) (n : Nat)
    (hfuel : 0 < fuel) (hn : n < store.length) : n ∈ visitPost store fuel acc n := by
  cases fuel with
  | zero => exact absurd hfuel (by simp)
  | succ fuel =>
    by_cases hmem : n ∈ acc
    · rw [visitPost_mem hmem]; exact hmem
    · cases hget : store.get? n with
      | none => exact absurd (List.get?_eq_none.1 hget) (Nat.not_le_of_lt hn)
      | some node =>
        rw [visitPost_succ_some hmem hget]
        simp

theorem visitPost_out {store : List GNode} {n : Nat} (hge : store.length ≤ n) :
    ∀ fuel acc, visitPost store fuel acc n = acc := by
  intro fuel acc
  cases fuel with
  | zero => simp [visitPost]
  | succ fuel =>
    by_cases hmem : n ∈ acc
    · exact visitPost_mem hmem
    · exact visitPost_succ_none hmem (List.get?_eq_none.2 hge)

theorem visitPost_bounded {store : List GNode} (hwf : WfStore store) :
    ∀ fuel n acc x, x ∈ visitPost store fuel acc n → x ∈ acc ∨ x ≤ n := by
  intro fuel
  induction fuel with
  | zero =>
    intro n acc x hx
    simp [visitPost] at hx
    exact Or.inl hx
  | succ fuel ih =>
    intro n acc x hx
    by_cases hmem : n ∈ acc
    · rw [visitPost_mem hmem] at hx
      exact Or.inl hx
    · cases hget : store.get? n with
      | none =>
        rw [visitPost_succ_none hmem hget] at hx
        exact Or.inl hx
      | some node =>
        rw [visitPost_succ_some hmem hget] at hx
        have hsub : ∀ (L : List NodeValue) (a : List Nat),
            x ∈ L.foldl (fun a i => visitPost store fuel a i.node) a →
            x ∈ a ∨ ∃ i ∈ L, x ≤ i.node := by
          intro L
          induction L with
          | nil => intro a h; exact Or.inl (by simpa using h)
          | cons i0 L ihL =>
            intro a h
            rcases ihL _ h with h2 | ⟨i, hiL, hle⟩
            · rcases ih i0.node a x h2 with h3 | h3
              · exact Or.inl h3
              · exact Or.inr ⟨i0, by simp, h3⟩
            · exact Or.inr ⟨i, by simp [hiL], hle⟩
        rcases List.mem_append.1 hx with hx | hx
        · rcases hsub node.inputs acc hx with h2 | ⟨i, hiL, hle⟩
          · exact Or.inl h2
          · exact Or.inr (Nat.le_of_lt (Nat.lt_of_le_of_lt hle (hwf n node hget i hiL)))
        · exact Or.inr (Nat.le_of_eq (List.mem_singleton.1 hx))

theorem visitPost_mem_lt {store : List GNode} :
    ∀ fuel n acc x, x ∈ visitPost store fuel acc n → x ∈ acc ∨ x < store.length := by
  intro fuel
  induction fuel with
  | zero =>
    intro n acc x hx
    simp [visitPost] at hx
    exact Or.inl hx
  | succ fuel ih =>
    intro n acc x hx
    by_cases hmem : n ∈ acc
    · rw [visitPost_mem hmem] at hx
      exact Or.inl hx
    · cases hget : store.get? n with
      | none =>
        rw [visitPost_succ_none hmem hget] at hx
        exact Or.inl hx
      | some node =>
        rw [visitPost_succ_some hmem hget] at hx
        have hsub : ∀ (L : List NodeValue) (a : List Nat),
            x ∈ L.foldl (fun a i => visitPost store fuel a i.node) a →
            x ∈ a ∨ x < store.length := by
          intro L
          induction L with
          | nil => intro a h; exact Or.inl (by simpa using h)
          | cons i0 L ihL =>
            intro a h
            rcases ihL _ h with h2 | h2
            · exact ih i0.node a x h2
            · exact Or.inr h2
        rcases List.mem_append.1 hx with hx | hx
        · exact hsub node.inputs acc hx
        · rw [List.mem_singleton.1 hx]
          exact Or.inr (get?_lt_length hget)

theorem visitPost_fold_bounded {store : List GNode} (hwf : WfStore store) (fuel : Nat)
    (L : List NodeValue) :
    ∀ (a : List Nat) (x : Nat),
      x ∈ L.foldl (fun a i => visitPost store fuel a i.node) a →
      x ∈ a ∨ ∃ i ∈ L, x ≤ i.node := by
  induction L with
  | nil => intro a x h; exact Or.inl (by simpa using h)
  | cons i0 L ihL =>
    intro a x h
    rcases ihL _ x h with h2 | ⟨i, hiL, hle⟩
    · rcases visitPost_bounded hwf fuel i0.node a x h2 with h3 | h3
      · exact Or.inl h3
      · exact Or.inr ⟨i0, by simp, h3⟩
    · exact Or.inr ⟨i, by simp [hiL], hle⟩

theorem visitPost_closed {store : List GNode} (hwf : WfStore store) :
    ∀ fuel n acc, n < fuel → Closed store acc → Closed store (visitPost store fuel acc n) := by
  intro fuel
  induction fuel with
  | zero => intro n acc h; omega
  | succ fuel ih =>
    intro n acc hn hc
    by_cases hmem : n ∈ acc
    · rw [visitPost_mem hmem]; exact hc
    · cases hget : store.get? n with
      | none => rw [visitPost_succ_none hmem hget]; exact hc
      | some node =>
        have hnfuel : n ≤ fuel := Nat.le_of_lt_succ hn
        have hnlen : n < store.length := get?_lt_length hget
        have hfold : ∀ (L : List NodeValue), (∀ i ∈ L, i.node < n) →
            ∀ a, Closed store a →
            Closed store (L.foldl (fun a i => visitPost store fuel a i.node) a) ∧
            ∀ i ∈ L, i.node ∈ L.foldl (fun a i => visitPost store fuel a i.node) a := by
          intro L
          induction L with
          | nil => intro _ a ha; exact ⟨by simpa using ha, by simp⟩
          | cons i0 L ihL =>
            intro hL a ha
            have hi0 : i0.node < n := hL i0 (by simp)
            have hi0fuel : i0.node < fuel := Nat.lt_of_lt_of_le hi0 hnfuel
            have hc1 : Closed store (visitPost store fuel a i0.node) :=
              ih i0.node a hi0fuel ha
            obtain ⟨hcl, hmm⟩ := ihL (fun i hi => hL i (by simp [hi])) _ hc1
            refine ⟨by simpa using hcl, ?_⟩
            intro i hi
            rcases (by simpa using hi : i = i0 ∨ i ∈ L) with rfl | hi2
            · have hm0 : i.node ∈ visitPost store fuel a i.node :=
                visitPost_self_mem store fuel a i.node (Nat.pos_of_ne_zero (by omega))
                  (Nat.lt_trans hi0 hnlen)
              obtain ⟨e, he⟩ := foldlExt (fun a x => visitPost store fuel a x.node)
                (fun a x => visitPost_extends store fuel a x.node) L
                (visitPost store fuel a i.node)
              simp only [List.foldl_cons]
              rw [he]
              exact List.mem_append.2 (Or.inl hm0)
            · simpa using hmm i hi2
        obtain ⟨hcl, hmem2⟩ := hfold node.inputs (fun i hi => hwf n node hget i hi) acc hc
        rw [visitPost_succ_some hmem hget]
        exact closed_append_single hcl hget hmem2

theorem visitPost_nodup {store : List GNode} (hwf : WfStore store) :
    ∀ fuel n acc, acc.Nodup → (visitPost store fuel acc n).Nodup := by
  intro fuel
  induction fuel with
  | zero => intro n acc h; simpa [visitPost] using h
  | succ fuel ih =>
    intro n acc hnd
    by_cases hmem : n ∈ acc
    · rw [visitPost_mem hmem]; exact hnd
    · cases hget : store.get? n with
      | none => rw [visitPost_succ_none hmem hget]; exact hnd
      | some node =>
        have hfoldnd : ∀ (L : List NodeValue) a, List.Nodup a →
            List.Nodup (L.foldl (fun a i => visitPost store fuel a i.node) a) := by
          intro L
          induction L with
          | nil => intro a h; simpa using h
          | cons i0 L ihL => intro a h; exact ihL _ (ih i0.node a h)
        have hnotin : n ∉ node.inputs.foldl (fun a i => visitPost store fuel a i.node) acc := by
          intro hx
          rcases visitPost_fold_bounded hwf fuel node.inputs acc n hx with h | ⟨i, hi, hle⟩
          · exact hmem h
          · exact absurd (Nat.lt_of_le_of_lt hle (hwf n node hget i hi)) (Nat.lt_irrefl n)
        rw [visitPost_succ_some hmem hget, List.nodup_append]
        exact ⟨hfoldnd node.inputs acc hnd, List.nodup_singleton n,
          by simpa [List.disjoint_singleton] using hnotin⟩

theorem foldVisit_closed {store : List GNode} (hwf : WfStore store) :
    ∀ (ids : List Nat) (acc : List Nat), Closed store acc →
      Closed store (ids.foldl (fun a v => visitPost store store.length a v) acc) := by
  intro ids
  induction ids with
  | nil => intro acc h; simpa using h
  | cons v ids ih =>
    intro acc h
    apply ih
    show Closed store (visitPost store store.length acc v)
    rcases Nat.lt_or_ge v store.length with hlt | hge
    · exact visitPost_closed hwf store.length v acc hlt h
    · rw [visitPost_out hge]; exact h

theorem foldVisit_nodup {store : List GNode} (hwf : WfStore store) :
    ∀ (ids : List Nat) (acc : List Nat), acc.Nodup →
      (ids.foldl (fun a v => visitPost store store.length a v) acc).Nodup := by
  intro ids
  induction ids with
  | nil => intro acc h; simpa using h
  | cons v ids ih =>
    intro acc h
    exact ih _ (visitPost_nodup hwf store.length v acc h)

theorem foldVisit_mem_lt {store : List GNode} :
    ∀ (ids : List Nat) (acc : List Nat) (x : Nat),
      x ∈ ids.foldl (fun a v => visitPost store store.length a v) acc →
      x ∈ acc ∨ x < store.length := by
  intro ids
  induction ids with
  | nil => intro acc x h; exact Or.inl (by simpa using h)
  | cons v ids ih =>
    intro acc x h
    rcases ih _ x h with h2 | h2
    · exact visitPost_mem_lt store.length v acc x h2
    · exact Or.inr h2

theorem foldVisit_extends (store : List GNode) :
    ∀ (ids : List Nat) (acc : List Nat),
      ∃ e, ids.foldl (fun a v => visitPost store store.length a v) acc = acc ++ e :=
  fun ids acc => foldlExt _ (fun a v => visitPost_extends store store.length a v) ids acc

theorem foldVisit_mem_of {store : List GNode} :
    ∀ (ids : List Nat) (acc : List Nat) (n : Nat), n ∈ ids → n < store.length →
      n ∈ ids.foldl (fun a v => visitPost store store.length a v) acc := by
  intro ids
  induction ids with
  | nil => intro acc n h; cases h
  | cons v ids ih =>
    intro acc n hmem hlt
    rcases (by simpa using hmem : n = v ∨ n ∈ ids) with rfl | h2
    · have h0 : n ∈ visitPost store store.length acc n :=
        visitPost_self_mem store store.length acc n (Nat.pos_of_ne_zero (by omega)) hlt
      obtain ⟨e, he⟩ := foldVisit_extends store ids (visitPost store store.length acc n)
      simp only [List.foldl_cons]
      rw [he]
      exact List.mem_append.2 (Or.inl h0)
    · exact ih _ n h2 hlt

theorem postOrder_closed {G : Graph} (hwf : WfStore G.store) : Closed G.store (postOrder G) := by
  unfold postOrder
  exact foldVisit_closed hwf G.nodes _ (foldVisit_closed hwf G.vars [] (closed_nil G.store))

theorem postOrder_nodup {G : Graph} (hwf : WfStore G.store) : (postOrder G).Nodup := by
  unfold postOrder
  exact foldVisit_nodup hwf G.nodes _ (foldVisit_nodup hwf G.vars [] List.nodup_nil)

theorem postOrder_bounded {G : Graph} : ∀ x ∈ postOrder G, x < G.store.length := by
  intro x hx
  unfold postOrder at hx
  rcases foldVisit_mem_lt G.nodes _ x hx with h | h
  · rcases foldVisit_mem_lt G.vars [] x h with h2 | h2
    · cases h2
    · exact h2
  · exact h

theorem postOrder_complete {G : Graph} :
    ∀ n, (n ∈ G.vars ∨ n ∈ G.nodes) → n < G.store.length → n ∈ postOrder G := by
  intro n hmem hlt
  unfold postOrder
  rcases hmem with h | h
  · obtain ⟨e, he⟩ := foldVisit_extends G.store G.nodes
      (G.vars.foldl (fun a v => visitPost G.store G.store.length a v) [])
    rw [he]
    exact List.mem_append.2 (Or.inl (foldVisit_mem_of G.vars [] n h hlt))
  · exact foldVisit_mem_of G.nodes _ n h hlt


/-! ### Behavior of one reverse-sweep step -/

theorem foldl_addGradient_evolves (g : NodeValue) :
    ∀ (L : List NodeValue) (st : PassState),
      Evolves st (L.foldl (fun s i => addGradient s i g) st) := by
  intro L
  induction L with
  | nil => intro st; exact evolves_refl st
  | cons i0 L ih =>
    intro st
    simp only [List.foldl_cons]
    exact evolves_trans (addGradient_evolves st i0 g) (ih _)

theorem foldl_addGradient_registers (g : NodeValue) :
    ∀ (L : List NodeValue) (st : PassState) (i : NodeValue), i ∈ L →
      (mapGet (L.foldl (fun s i => addGradient s i g) st).map i).isSome = true := by
  intro L
  induction L with
  | nil => intro st i hmem; cases hmem
  | cons i0 L ih =>
    intro st i hmem
    simp only [List.foldl_cons]
    rcases (by simpa using hmem : i = i0 ∨ i ∈ L) with rfl | h2
    · exact (foldl_addGradient_evolves g L _).2.2.2.2 i (addGradient_self st i g)
    · exact ih _ i h2

theorem concatStep_fst (dim : Nat) (og : NodeValue) (acc : PassState × List Nat)
    (inp : NodeValue) :
    (concatStep dim og acc inp).1 =
      addGradient (createNode acc.1
        { name := "extract", kind := .slice acc.2, inputs := [og],
          ty := nvTy acc.1.store inp }).1 inp ⟨acc.1.store.length, 0⟩ := rfl

theorem concatStep_evolves (dim : Nat) (og : NodeValue) (acc : PassState × List Nat)
    (inp : NodeValue) : Evolves acc.1 (concatStep dim og acc inp).1 := by
  rw [concatStep_fst]
  exact evolves_trans (createNode_evolves acc.1 _) (addGradient_evolves _ inp _)

theorem concat_fold_evolves (dim : Nat) (og : NodeValue) :
    ∀ (L : List NodeValue) (acc : PassState × List Nat),
      Evolves acc.1 (L.foldl (concatStep dim og) acc).1 := by
  intro L
  induction L with
  | nil => intro acc; exact evolves_refl _
  | cons i0 L ih =>
    intro acc
    simp only [List.foldl_cons]
    exact evolves_trans (concatStep_evolves dim og acc i0) (ih _)

theorem concat_fold_registers (dim : Nat) (og : NodeValue) :
    ∀ (L : List NodeValue) (acc : PassState × List Nat) (i : NodeValue), i ∈ L →
      (mapGet ((L.foldl (concatStep dim og) acc).1).map i).isSome = true := by
  intro L
  induction L with
  | nil => intro acc i h; cases h
  | cons i0 L ih =>
    intro acc i h
    simp only [List.foldl_cons]
    rcases (by simpa using h : i = i0 ∨ i ∈ L) with rfl | h2
    · refine (concat_fold_evolves dim og L _).2.2.2.2 i ?_
      rw [concatStep_fst]
      exact addGradient_self _ i _
    · exact ih _ i h2

theorem genericGetGrad_ok_evolves {st st' : PassState} {n : Nat} {node : GNode}
    (h : genericGetGrad st n node = .ok st') : Evolves st st' := by
  unfold genericGetGrad at h
  split at h
  · cases h
  · injection h with h
    subst h
    exact evolves_trans (stageNode_evolves st _) (foldl_addGradient_evolves _ node.inputs _)

theorem genericGetGrad_registers {st st' : PassState} {n : Nat} {node : GNode}
    (h : genericGetGrad st n node = .ok st') :
    ∀ i ∈ node.inputs, (mapGet st'.map i).isSome = true := by
  unfold genericGetGrad at h
  split at h
  · cases h
  · injection h with h
    subst h
    intro i hi
    exact foldl_addGradient_registers _ node.inputs _ i hi

theorem genericGetGrad_missing {st : PassState} {n : Nat} {node : GNode}
    (h : genericGetGrad st n node = .error .missingGradient) :
    mapGet st.map ⟨n, 0⟩ = none := by
  unfold genericGetGrad at h
  split at h
  · assumption
  · cases h

theorem stepNode_ok_evolves {st st' : PassState} {n : Nat}
    (h : stepNode st n = .ok st') : Evolves st st' := by
  unfold stepNode at h
  split at h
  · cases h
  · split at h
    all_goals repeat' split at h
    all_goals first
      | (cases h; done)
      | exact genericGetGrad_ok_evolves h
      | (injection h with h; subst h;
         first
           | exact evolves_refl st
           | exact concat_fold_evolves _ _ _ _
           | exact evolves_trans (stageNode_evolves st _) (addGradient_evolves _ _ _)
           | exact evolves_trans (stageNode_evolves st _)
               (evolves_trans (addGradient_evolves _ _ _) (addGradient_evolves _ _ _))
           | exact evolves_trans (stageNode_evolves st _)
               (evolves_trans (stageNode_evolves _ _) (addGradient_evolves _ _ _)))

theorem stepNode_registers {st st' : PassState} {n : Nat} {node : GNode}
    (hget : st.store.get? n = some node) (hnv : isVarKind node.kind = false)
    (h : stepNode st n = .ok st') :
    ∀ i ∈ node.inputs, (mapGet st'.map i).isSome = true := by
  unfold stepNode at h
  rw [hget] at h
  dsimp only at h
  cases hk : node.kind <;> rw [hk] at h <;> (try dsimp only at h)
  case var => rw [hk] at hnv; cases hnv
  case convolution => exact genericGetGrad_registers h
  case pool => exact genericGetGrad_registers h
  case fullyConnected => exact genericGetGrad_registers h
  case batchNormalization => exact genericGetGrad_registers h
  case localResponseNormalization => exact genericGetGrad_registers h
  case softMax => exact genericGetGrad_registers h
  case regression => exact genericGetGrad_registers h
  case arithmetic => exact genericGetGrad_registers h
  case relu => exact genericGetGrad_registers h
  case sigmoid => exact genericGetGrad_registers h
  case tanh => exact genericGetGrad_registers h
  case save =>
    intro i hi
    split at h
    next inp v heq =>
      injection h with h
      subst h
      rw [heq] at hi
      rcases (by simpa using hi : i = inp ∨ i = v) with rfl | rfl
      · exact (addGradient_evolves _ v _).2.2.2.2 i (addGradient_self _ i _)
      · exact addGradient_self _ i _
    next => cases h
  case reshape =>
    intro i hi
    split at h
    next inp heq =>
      split at h
      · cases h
      · injection h with h
        subst h
        rw [heq] at hi
        rcases (by simpa using hi : i = inp) with rfl
        exact addGradient_self _ i _
    next => cases h
  case transpose =>
    intro i hi
    split at h
    next inp heq =>
      split at h
      · cases h
      · injection h with h
        subst h
        rw [heq] at hi
        rcases (by simpa using hi : i = inp) with rfl
        exact addGradient_self _ i _
    next => cases h
  case slice =>
    intro i hi
    split at h
    next inp heq =>
      split at h
      · cases h
      · injection h with h
        subst h
        rw [heq] at hi
        rcases (by simpa using hi : i = inp) with rfl
        exact addGradient_self _ i _
    next => cases h
  case concat =>
    intro i hi
    split at h
    · cases h
    · injection h with h
      subst h
      exact concat_fold_registers _ _ node.inputs _ i hi
  case zero => cases h
  case insertTensor => cases h
  case sgd => cases h
  case genericGrad => cases h
  case other => cases h

theorem stepNode_missing_no_grad {st : PassState} {n : Nat} {node : GNode}
    (hget : st.store.get? n = some node)
    (h : stepNode st n = .error .missingGradient) :
    mapGet st.map ⟨n, 0⟩ = none ∧ isVarKind node.kind = false ∧ node.kind ≠ .save := by
  unfold stepNode at h
  rw [hget] at h
  dsimp only at h
  cases hk : node.kind <;> rw [hk] at h <;> (try dsimp only at h)
  case var => cases h
  case convolution => exact ⟨genericGetGrad_missing h, rfl, by intro hc; cases hc⟩
  case pool => exact ⟨genericGetGrad_missing h, rfl, by intro hc; cases hc⟩
  case fullyConnected => exact ⟨genericGetGrad_missing h, rfl, by intro hc; cases hc⟩
  case batchNormalization => exact ⟨genericGetGrad_missing h, rfl, by intro hc; cases hc⟩
  case localResponseNormalization => exact ⟨genericGetGrad_missing h, rfl, by intro hc; cases hc⟩
  case softMax => exact ⟨genericGetGrad_missing h, rfl, by intro hc; cases hc⟩
  case regression => exact ⟨genericGetGrad_missing h, rfl, by intro hc; cases hc⟩
  case arithmetic => exact ⟨genericGetGrad_missing h, rfl, by intro hc; cases hc⟩
  case relu => exact ⟨genericGetGrad_missing h, rfl, by intro hc; cases hc⟩
  case sigmoid => exact ⟨genericGetGrad_missing h, rfl, by intro hc; cases hc⟩
  case tanh => exact ⟨genericGetGrad_missing h, rfl, by intro hc; cases hc⟩
  case save =>
    split at h
    · cases h
    · cases h
  case reshape =>
    refine ⟨?_, rfl, by intro hc; cases hc⟩
    split at h
    · split at h
      · assumption
      · cases h
    · cases h
  case transpose =>
    refine ⟨?_, rfl, by intro hc; cases hc⟩
    split at h
    · split at h
      · assumption
      · cases h
    · cases h
  case slice =>
    refine ⟨?_, rfl, by intro hc; cases hc⟩
    split at h
    · split at h
      · assumption
      · cases h
    · cases h
  case concat =>
    refine ⟨?_, rfl, by intro hc; cases hc⟩
    split at h
    · assumption
    · cases h
  case zero => cases h
  case insertTensor => cases h
  case sgd => cases h
  case genericGrad => cases h
  case other => cases h

/-! ### The reverse sweep finds every gradient registered -/

/-- The sweep invariant: every operand of an already-processed non-variable
node has a registered gradient. -/
def Registered (store0 : List GNode) (st : PassState) (processed : List Nat) : Prop :=
  ∀ m node i, m ∈ processed → store0.get? m = some node → isVarKind node.kind = false →
    i ∈ node.inputs → (mapGet st.map i).isSome = true

theorem sweep_not_missing {store0 : List GNode} (hwf : WfStore store0)
    {l : List Nat} (hbound : ∀ x ∈ l, x < store0.length)
    (hclosed : Closed store0 l) (hnodup : l.Nodup)
    (hseed : ∀ n node, n ∈ l → store0.get? n = some node → isVarKind node.kind = false →
      node.kind ≠ .save →
      ∃ m mnode, m ∈ l ∧ store0.get? m = some mnode ∧ isVarKind mnode.kind = false ∧
        NodeValue.mk n 0 ∈ mnode.inputs) :
    ∀ l1 l2 st, l = l1 ++ l2 →
      (∃ e, st.store = store0 ++ e) →
      Registered store0 st l2 →
      foldSteps stepNode st l1.reverse ≠ .error .missingGradient := by
  intro l1
  induction l1 using List.reverseRecOn with
  | nil =>
    intro l2 st _ _ _
    simp [foldSteps]
  | append_singleton l1' n ih =>
    intro l2 st hsplit hext hreg
    have hrev : (l1' ++ [n]).reverse = n :: l1'.reverse := by simp
    rw [hrev]
    have hn_l : n ∈ l := by
      rw [hsplit]
      exact List.mem_append.2 (Or.inl (List.mem_append.2 (Or.inr (by simp))))
    have hnlen : n < store0.length := hbound n hn_l
    obtain ⟨node, hget0⟩ : ∃ node, store0.get? n = some node := by
      cases hg : store0.get? n with
      | none => exact absurd (List.get?_eq_none.1 hg) (Nat.not_le_of_lt hnlen)
      | some node => exact ⟨node, rfl⟩
    have hgetst : st.store.get? n = some node := by
      obtain ⟨e, he⟩ := hext
      rw [he]
      exact get?_of_storeExt hget0
    have hsplit' : l = l1' ++ (n :: l2) := by
      rw [hsplit, List.append_assoc]
      rfl
    simp only [foldSteps]
    cases hstep : stepNode st n with
    | error e =>
      intro hcontra
      injection hcontra with hcontra
      subst hcontra
      obtain ⟨hnone, hnv, hnsave⟩ := stepNode_missing_no_grad hgetst hstep
      obtain ⟨m, mnode, hm_l, hmget, hmnv, hmin⟩ := hseed n node hn_l hget0 hnv hnsave
      have hm_l2 : m ∈ l2 := by
        have hm_cases : m ∈ l1' ∨ m = n ∨ m ∈ l2 := by
          rw [hsplit'] at hm_l
          rcases List.mem_append.1 hm_l with h | h
          · exact Or.inl h
          · rcases (by simpa using h : m = n ∨ m ∈ l2) with h | h
            · exact Or.inr (Or.inl h)
            · exact Or.inr (Or.inr h)
        rcases hm_cases with hm1 | hmn | hm2
        · exfalso
          obtain ⟨k, hk⟩ := List.mem_iff_get?.1 hm1
          have hklt : k < l1'.length := get?_lt_length hk
          have hkl : l.get? k = some m := by
            rw [hsplit']
            rw [List.get?_append hklt]
            exact hk
          have hn_take : n ∈ l.take k := hclosed k m mnode ⟨n, 0⟩ hkl hmget hmin
          have hn_l1' : n ∈ l1' := by
            rw [hsplit'] at hn_take
            rw [List.take_append_of_le_length (Nat.le_of_lt hklt)] at hn_take
            exact List.take_subset k l1' hn_take
          have hnd := hnodup
          rw [hsplit'] at hnd
          obtain ⟨_, _, hdisj⟩ := List.nodup_append.1 hnd
          exact hdisj hn_l1' (by simp)
        · exfalso
          subst hmn
          rw [hget0] at hmget
          cases hmget
          exact absurd (hwf m node hget0 ⟨m, 0⟩ hmin) (Nat.lt_irrefl m)
        · exact hm2
      have := hreg m mnode ⟨n, 0⟩ hm_l2 hmget hmnv hmin
      rw [hnone] at this
      cases this
    | ok st1 =>
      have hext1 : ∃ e, st1.store = store0 ++ e := by
        obtain ⟨e, he⟩ := hext
        obtain ⟨e2, he2⟩ := (stepNode_ok_evolves hstep).1
        exact ⟨e ++ e2, by rw [he2, he, List.append_assoc]⟩
      have hreg1 : Registered store0 st1 (n :: l2) := by
        intro m mnode i hm hmget hmnv hiin
        rcases (by simpa using hm : m = n ∨ m ∈ l2) with rfl | hm2
        · rw [hget0] at hmget
          cases hmget
          exact stepNode_registers hgetst hmnv hstep i hiin
        · exact (stepNode_ok_evolves hstep).2.2.2.2 i (hreg m mnode i hm2 hmget hmnv hiin)
      exact ih (n :: l2) st1 hsplit' hext1 hreg1

theorem seedCoveredB_spec {G : Graph} (h : seedCoveredB G = true) :
    ∀ n node, n ∈ postOrder G → G.store.get? n = some node → isVarKind node.kind = false →
      node.kind ≠ .save →
      ∃ m mnode, m ∈ postOrder G ∧ G.store.get? m = some mnode ∧
        isVarKind mnode.kind = false ∧ NodeValue.mk n 0 ∈ mnode.inputs := by
  intro n node hn hget hnv hns
  have h1 := (List.all_eq_true.1 h) n hn
  simp only [seedCoveredB, hget] at h1
  rw [hnv] at h1
  have hbeq : (node.kind == NodeKind.save) = false := by
    rcases hbe : node.kind == NodeKind.save with _ | _
    · rfl
    · exact absurd (eq_of_beq hbe) hns
  rw [hbeq] at h1
  simp only [Bool.or_self, if_false] at h1
  obtain ⟨m, hm, hf⟩ := List.any_eq_true.1 h1
  refine ⟨m, ?_⟩
  cases hmget : G.store.get? m with
  | none => rw [hmget] at hf; cases hf
  | some mnode =>
    rw [hmget] at hf
    rw [Bool.and_eq_true] at hf
    obtain ⟨hf1, hf2⟩ := hf
    exact ⟨mnode, hm, rfl, by simpa using hf1, of_decide_eq_true hf2⟩



/-! ### Claim C1 -/

/-- Demonstration graph for C1: a trainable parameter fed through a rectified
linear unit into a graph output. -/
def c1Graph : Graph :=
  { store :=
      [ { name := "W", kind := .var true .broadcast, inputs := [], ty := [2] },
        { name := "out", kind := .var false .broadcast, inputs := [], ty := [2] },
        { name := "r", kind := .relu, inputs := [⟨0, 0⟩], ty := [2] },
        { name := "sv", kind := .save, inputs := [⟨2, 0⟩, ⟨1, 0⟩], ty := [2] } ],
    nodes := [2, 3], vars := [0, 1], gradVarMap := [] }

/-- C1: the pass visits every parameter and operation node of the graph in a
dependency-first (post) order (`Closed`: a node never precedes any node it
depends on, so consuming the order in reverse runs every consumer before the
node it consumes), and the reverse sweep over that order can never fail with a
missing-gradient error: every `getGradient` lookup performed by a backward
rule finds a registered entry.  Hypotheses: the arena is well-formed (operands
refer to earlier nodes), and every non-variable, non-save node has a
non-variable consumer of its output somewhere in the order (the graph is
reachable from its declared outputs). -/
theorem c1_reverse_post_order_finds_gradients (G : Graph)
    (hwf : wfStoreB G.store = true) (hseed : seedCoveredB G = true) :
    Closed G.store (postOrder G) ∧
    (∀ n, (n ∈ G.vars ∨ n ∈ G.nodes) → n < G.store.length → n ∈ postOrder G) ∧
    foldSteps stepNode
      { store := G.store, map := [], toAppend := [], newVars := [],
        gradVarMap := G.gradVarMap }
      (postOrder G).reverse ≠ .error .missingGradient := by
  have hwf2 := wfStoreB_spec hwf
  refine ⟨postOrder_closed hwf2, fun n hm hlt => postOrder_complete n hm hlt, ?_⟩
  exact sweep_not_missing hwf2 (fun x hx => postOrder_bounded x hx)
    (postOrder_closed hwf2) (postOrder_nodup hwf2) (seedCoveredB_spec hseed)
    (postOrder G) [] _ (by simp) ⟨[], by simp⟩
    (fun m node i hm _ _ _ => absurd hm (List.not_mem_nil m))

/-- Witness for C1 at the concrete graph `c1Graph`. -/
theorem c1_witness :
    (wfStoreB c1Graph.store = true ∧ seedCoveredB c1Graph = true) ∧
    (Closed c1Graph.store (postOrder c1Graph) ∧
     (∀ n, (n ∈ c1Graph.vars ∨ n ∈ c1Graph.nodes) → n < c1Graph.store.length →
        n ∈ postOrder c1Graph) ∧
     foldSteps stepNode
       { store := c1Graph.store, map := [], toAppend := [], newVars := [],
         gradVarMap := c1Graph.gradVarMap }
       (postOrder c1Graph).reverse ≠ .error .missingGradient) :=
  ⟨⟨by decide, by decide⟩,
    c1_reverse_post_order_finds_gradients c1Graph (by decide) (by decide)⟩



/-! ### Claim C2 -/

theorem evalNV_add {store : List GNode} {env : NodeValue → List Int} {fuel : Nat}
    {p : Nat} {nm : String} {a b : NodeValue} {t : Ty} {d1 d2 : List Int}
    (hp : store.get? p = some { name := nm, kind := .arithmetic .add, inputs := [a, b], ty := t })
    (ha : evalNV store env fuel a = some d1) (hb : evalNV store env fuel b = some d2) :
    evalNV store env (fuel + 1) ⟨p, 0⟩ = some (List.zipWith (· + ·) d1 d2) := by
  simp only [evalNV]
  rw [hp]
  dsimp only
  rw [ha, hb]

/-- C2: `addGradient` with no registered gradient registers the incoming
gradient directly; with one registered it registers a fresh elementwise-sum
(`Add`) node over the existing and the incoming gradient, so after two calls
with contributions g1 and g2 the registered gradient evaluates to the
elementwise sum of their values in either call order, and no contribution is
dropped. -/
theorem c2_addGradient_accumulates (st : PassState) (v g1 g2 : NodeValue)
    (env : NodeValue → List Int) (fuel : Nat) (d1 d2 : List Int)
    (hv : mapGet st.map v = none) :
    mapGet (addGradient st v g1).map v = some g1 ∧
    (mapGet (addGradient (addGradient st v g1) v g2).map v =
        some ⟨st.store.length, 0⟩ ∧
      (addGradient (addGradient st v g1) v g2).store.get? st.store.length =
        some { name := "updateGrad", kind := .arithmetic .add, inputs := [g1, g2],
               ty := nvTy st.store g1 }) ∧
    (evalNV (addGradient (addGradient st v g1) v g2).store env fuel g1 = some d1 →
     evalNV (addGradient (addGradient st v g1) v g2).store env fuel g2 = some d2 →
     ∃ gv, mapGet (addGradient (addGradient st v g1) v g2).map v = some gv ∧
       evalNV (addGradient (addGradient st v g1) v g2).store env (fuel + 1) gv =
         some (List.zipWith (· + ·) d1 d2)) ∧
    (evalNV (addGradient (addGradient st v g2) v g1).store env fuel g1 = some d1 →
     evalNV (addGradient (addGradient st v g2) v g1).store env fuel g2 = some d2 →
     ∃ gv, mapGet (addGradient (addGradient st v g2) v g1).map v = some gv ∧
       evalNV (addGradient (addGradient st v g2) v g1).store env (fuel + 1) gv =
         some (List.zipWith (· + ·) d1 d2)) := by
  have h1 : ∀ g : NodeValue, addGradient st v g = { st with map := mapInsert st.map v g } := by
    intro g
    unfold addGradient
    rw [hv]
  have h2 : ∀ ga gb : NodeValue,
      addGradient { st with map := mapInsert st.map v ga } v gb =
      { store := st.store ++
          [({ name := "updateGrad", kind := .arithmetic .add, inputs := [ga, gb],
              ty := nvTy st.store ga } : GNode)],
        map := mapInsert (mapInsert st.map v ga) v ⟨st.store.length, 0⟩,
        toAppend := st.toAppend ++ [st.store.length],
        newVars := st.newVars, gradVarMap := st.gradVarMap } := by
    intro ga gb
    unfold addGradient
    rw [mapGet_insert_self]
    rfl
  refine ⟨?_, ⟨?_, ?_⟩, ?_, ?_⟩
  · rw [h1 g1]
    exact mapGet_insert_self _ _ _
  · rw [h1 g1, h2 g1 g2]
    exact mapGet_insert_self _ _ _
  · rw [h1 g1, h2 g1 g2]
    exact List.get?_concat_length _ _
  · intro ha hb
    refine ⟨⟨st.store.length, 0⟩, ?_, ?_⟩
    · rw [h1 g1, h2 g1 g2]
      exact mapGet_insert_self _ _ _
    · rw [h1 g1, h2 g1 g2] at ha hb ⊢
      exact evalNV_add (List.get?_concat_length _ _) ha hb
  · intro ha hb
    refine ⟨⟨st.store.length, 0⟩, ?_, ?_⟩
    · rw [h1 g2, h2 g2 g1]
      exact mapGet_insert_self _ _ _
    · rw [h1 g2, h2 g2 g1] at ha hb ⊢
      rw [List.zipWith_comm_of_comm (· + ·) Int.add_comm]
      exact evalNV_add (List.get?_concat_length _ _) hb ha

/-- Demonstration state for C2: two leaf gradient nodes in the arena, an empty
gradient map. -/
def c2State : PassState :=
  { store :=
      [ { name := "ga", kind := .relu, inputs := [], ty := [2] },
        { name := "gb", kind := .relu, inputs := [], ty := [2] } ],
    map := [], toAppend := [], newVars := [], gradVarMap := [] }

/-- Environment for C2: leaf 0 carries the vector [1, 2], every other leaf
carries [10, 20]. -/
def c2Env : NodeValue → List Int :=
  fun w => if w.node = 0 then [1, 2] else [10, 20]

/-- Witness for C2 at concrete inputs. -/
theorem c2_witness :
    mapGet c2State.map ⟨7, 0⟩ = none ∧
    (mapGet (addGradient c2State ⟨7, 0⟩ ⟨0, 0⟩).map ⟨7, 0⟩ = some ⟨0, 0⟩ ∧
    (mapGet (addGradient (addGradient c2State ⟨7, 0⟩ ⟨0, 0⟩) ⟨7, 0⟩ ⟨1, 0⟩).map ⟨7, 0⟩ =
        some ⟨c2State.store.length, 0⟩ ∧
      (addGradient (addGradient c2State ⟨7, 0⟩ ⟨0, 0⟩) ⟨7, 0⟩ ⟨1, 0⟩).store.get?
          c2State.store.length =
        some { name := "updateGrad", kind := .arithmetic .add, inputs := [⟨0, 0⟩, ⟨1, 0⟩],
               ty := nvTy c2State.store ⟨0, 0⟩ }) ∧
    (evalNV (addGradient (addGradient c2State ⟨7, 0⟩ ⟨0, 0⟩) ⟨7, 0⟩ ⟨1, 0⟩).store c2Env 1
        ⟨0, 0⟩ = some [1, 2] →
     evalNV (addGradient (addGradient c2State ⟨7, 0⟩ ⟨0, 0⟩) ⟨7, 0⟩ ⟨1, 0⟩).store c2Env 1
        ⟨1, 0⟩ = some [10, 20] →
     ∃ gv, mapGet (addGradient (addGradient c2State ⟨7, 0⟩ ⟨0, 0⟩) ⟨7, 0⟩ ⟨1, 0⟩).map
          ⟨7, 0⟩ = some gv ∧
       evalNV (addGradient (addGradient c2State ⟨7, 0⟩ ⟨0, 0⟩) ⟨7, 0⟩ ⟨1, 0⟩).store c2Env 2
          gv = some (List.zipWith (· + ·) [1, 2] [10, 20])) ∧
    (evalNV (addGradient (addGradient c2State ⟨7, 0⟩ ⟨1, 0⟩) ⟨7, 0⟩ ⟨0, 0⟩).store c2Env 1
        ⟨0, 0⟩ = some [1, 2] →
     evalNV (addGradient (addGradient c2State ⟨7, 0⟩ ⟨1, 0⟩) ⟨7, 0⟩ ⟨0, 0⟩).store c2Env 1
        ⟨1, 0⟩ = some [10, 20] →
     ∃ gv, mapGet (addGradient (addGradient c2State ⟨7, 0⟩ ⟨1, 0⟩) ⟨7, 0⟩ ⟨0, 0⟩).map
          ⟨7, 0⟩ = some gv ∧
       evalNV (addGradient (addGradient c2State ⟨7, 0⟩ ⟨1, 0⟩) ⟨7, 0⟩ ⟨0, 0⟩).store c2Env 2
          gv = some (List.zipWith (· + ·) [1, 2] [10, 20]))) :=
  ⟨by decide,
    c2_addGradient_accumulates c2State ⟨7, 0⟩ ⟨0, 0⟩ ⟨1, 0⟩ c2Env 1 [1, 2] [10, 20] (by decide)⟩



/-! ### Claim C7 -/

theorem reverseShuffle_aux (shuffle : List Nat)
    (hmem : ∀ j ∈ shuffle, j < shuffle.length) (hnd : shuffle.Nodup) :
    ∀ k, k ≤ shuffle.length →
      ((List.range k).foldl (fun acc i => acc.set (shuffle.getD i 0) i) shuffle).length =
        shuffle.length ∧
      (∀ i j, i < k → shuffle.get? i = some j →
        ((List.range k).foldl (fun acc i => acc.set (shuffle.getD i 0) i) shuffle).get? j =
          some i) := by
  intro k
  induction k with
  | zero => intro _; exact ⟨by simp, fun i j hi => absurd hi (Nat.not_lt_zero i)⟩
  | succ k ih =>
    intro hk
    obtain ⟨ihlen, ihget⟩ := ih (Nat.le_of_succ_le hk)
    have hstep : (List.range (k + 1)).foldl (fun acc i => acc.set (shuffle.getD i 0) i) shuffle =
        ((List.range k).foldl (fun acc i => acc.set (shuffle.getD i 0) i) shuffle).set
          (shuffle.getD k 0) k := by
      rw [List.range_succ, List.foldl_append]
      rfl
    have hklt : k < shuffle.length := Nat.lt_of_succ_le hk
    obtain ⟨jk, hjk⟩ : ∃ jk, shuffle.get? k = some jk := by
      cases hg : shuffle.get? k with
      | none => exact absurd (List.get?_eq_none.1 hg) (Nat.not_le_of_lt hklt)
      | some jk => exact ⟨jk, rfl⟩
    have hgetD : shuffle.getD k 0 = jk := by
      rw [List.getD_eq_getElem?_getD, ← List.get?_eq_getElem?, hjk]
      rfl
    refine ⟨by rw [hstep, List.length_set]; exact ihlen, ?_⟩
    intro i j hi hij
    rcases Nat.lt_or_ge i k with hik | hik
    · have hne : shuffle.getD k 0 ≠ j := by
        rw [hgetD]
        intro hc
        subst hc
        have : i = k := by
          apply List.getElem?_inj (get?_lt_length hij) hnd
          rw [← List.get?_eq_getElem?, ← List.get?_eq_getElem?, hij, hjk]
        omega
      rw [hstep, List.get?_set_ne _ _ hne]
      exact ihget i j hik hij
    · have hik2 : i = k := by omega
      subst hik2
      rw [hjk] at hij
      cases hij
      rw [hstep, hgetD, List.get?_set_eq_of_lt]
      rw [ihlen]
      exact hmem jk (List.get?_mem hjk)

/-- C7: for a transpose node with a permutation shuffle, the computed reverse
shuffle satisfies reverseShuffle[shuffle[i]] = i for every valid axis index i,
and the backward rule builds a transpose node applying that inverse
permutation to the output gradient and stages it.  The hypotheses say that
shuffle is a permutation of the axis indices (all entries in range, no
duplicates). -/
theorem c7_transpose_inverse (shuffle : List Nat)
    (hmem : ∀ j ∈ shuffle, j < shuffle.length) (hnd : shuffle.Nodup) :
    (∀ i j, shuffle.get? i = some j → (reverseShuffle shuffle).get? j = some i) ∧
    (∀ (st : PassState) (n : Nat) (node : GNode) (inp og : NodeValue),
      st.store.get? n = some node → node.kind = .transpose shuffle →
      node.inputs = [inp] → mapGet st.map ⟨n, 0⟩ = some og →
      ∃ st', stepNode st n = .ok st' ∧
        st'.store.get? st.store.length =
          some { name := node.name, kind := .transpose (reverseShuffle shuffle),
                 inputs := [og], ty := nvTy st.store inp } ∧
        st.store.length ∈ st'.toAppend ∧
        (mapGet st'.map inp).isSome = true) := by
  constructor
  · intro i j hij
    have := (reverseShuffle_aux shuffle hmem hnd shuffle.length (Nat.le_refl _)).2 i j
      (get?_lt_length hij) hij
    exact this
  · intro st n node inp og hget hkind hin hmap
    unfold stepNode
    rw [hget]
    dsimp only
    rw [hkind]
    dsimp only
    rw [hin]
    dsimp only
    rw [hmap]
    dsimp only
    refine ⟨_, rfl, ?_, ?_, ?_⟩
    · generalize ({ name := node.name,
                    kind := NodeKind.transpose (reverseShuffle shuffle),
                    inputs := [og],
                    ty := nvTy st.store inp } : GNode) = A
      obtain ⟨e, he⟩ := (addGradient_evolves (stageNode st A).1 inp ⟨(stageNode st A).2, 0⟩).1
      rw [he, stageNode_fst_store]
      exact get?_of_storeExt (List.get?_concat_length _ _)
    · generalize ({ name := node.name,
                    kind := NodeKind.transpose (reverseShuffle shuffle),
                    inputs := [og],
                    ty := nvTy st.store inp } : GNode) = A
      obtain ⟨e, he⟩ := (addGradient_evolves (stageNode st A).1 inp ⟨(stageNode st A).2, 0⟩).2.1
      rw [he, stageNode_fst_toAppend]
      simp
    · exact addGradient_self _ inp _



/-- Concrete axis permutation for the C7 witness. -/
def shuffle012 : List Nat := [2, 0, 1]

/-- Witness for C7 at the concrete permutation [2, 0, 1]. -/
theorem c7_witness :
    ((∀ j ∈ shuffle012, j < shuffle012.length) ∧ shuffle012.Nodup) ∧
    ((∀ i j, shuffle012.get? i = some j → (reverseShuffle shuffle012).get? j = some i) ∧
     (∀ (st : PassState) (n : Nat) (node : GNode) (inp og : NodeValue),
       st.store.get? n = some node → node.kind = .transpose shuffle012 →
       node.inputs = [inp] → mapGet st.map ⟨n, 0⟩ = some og →
       ∃ st', stepNode st n = .ok st' ∧
         st'.store.get? st.store.length =
           some { name := node.name, kind := .transpose (reverseShuffle shuffle012),
                  inputs := [og], ty := nvTy st.store inp } ∧
         st.store.length ∈ st'.toAppend ∧
         (mapGet st'.map inp).isSome = true)) :=
  ⟨⟨by decide, by decide⟩, c7_transpose_inverse shuffle012 (by decide) (by decide)⟩



/-! ### Behavior of the per-variable update-synthesis step -/

theorem get?_append_left {α : Type} {l e : List α} {n : Nat} {x : α}
    (h : l.get? n = some x) : (l ++ e).get? n = some x := by
  have hn : n < l.length := by
    by_contra hc
    rw [List.get?_eq_none.2 (Nat.le_of_not_lt hc)] at h
    cases h
  rw [List.get?_append hn]
  exact h

theorem createNode_fst_map (st : PassState) (g : GNode) :
    (createNode st g).1.map = st.map := rfl

theorem createNode_fst_store (st : PassState) (g : GNode) :
    (createNode st g).1.store = st.store ++ [g] := rfl

theorem createNode_snd (st : PassState) (g : GNode) :
    (createNode st g).2 = st.store.length := rfl

theorem isTraining_of_get {store : List GNode} {v : Nat} {vnode : GNode} {t : Bool}
    {ik : InitKind} (h : store.get? v = some vnode) (hk : vnode.kind = .var t ik) :
    isTraining store v = t := by
  unfold isTraining
  rw [h]
  dsimp only
  rw [hk]

theorem nvTy_of_get {store : List GNode} {v : Nat} {vnode : GNode}
    (h : store.get? v = some vnode) : nvTy store ⟨v, 0⟩ = vnode.ty := by
  unfold nvTy
  rw [show (⟨v, 0⟩ : NodeValue).node = v from rfl, h]

theorem debugSave_map (mode : CompilationMode) (st : PassState) (v : Nat) :
    (debugSave mode st v).map = st.map := by
  unfold debugSave
  split
  · split <;> rfl
  · rfl

theorem debugSave_storeExt (mode : CompilationMode) (st : PassState) (v : Nat) :
    ∃ e, (debugSave mode st v).store = st.store ++ e := by
  unfold debugSave
  split
  · split
    · exact ⟨_, (List.append_assoc _ _ _)⟩
    · exact ⟨[], by simp⟩
  · exact ⟨[], by simp⟩

theorem debugSave_newVarsExt (mode : CompilationMode) (st : PassState) (v : Nat) :
    ∃ e, (debugSave mode st v).newVars = st.newVars ++ e := by
  unfold debugSave
  split
  · split
    · exact ⟨_, rfl⟩
    · exact ⟨[], by simp⟩
  · exact ⟨[], by simp⟩

theorem debugSave_toAppendExt (mode : CompilationMode) (st : PassState) (v : Nat) :
    ∃ e, (debugSave mode st v).toAppend = st.toAppend ++ e := by
  unfold debugSave
  split
  · split
    · exact ⟨_, rfl⟩
    · exact ⟨[], by simp⟩
  · exact ⟨[], by simp⟩

theorem debugSave_gradVarMapExt (mode : CompilationMode) (st : PassState) (v : Nat) :
    ∃ e, (debugSave mode st v).gradVarMap = st.gradVarMap ++ e := by
  unfold debugSave
  split
  · split
    · exact ⟨_, rfl⟩
    · exact ⟨[], by simp⟩
  · exact ⟨[], by simp⟩

theorem debugSave_id_not_debug {mode : CompilationMode} (st : PassState) (v : Nat)
    (h : mode ≠ .trainDebug) : debugSave mode st v = st := by
  unfold debugSave
  have hb : (mode == CompilationMode.trainDebug) = false := by
    cases mode <;> simp_all
  rw [hb]
  simp

theorem debugSave_id_no_grad (mode : CompilationMode) (st : PassState) (v : Nat)
    (h : mapGet st.map ⟨v, 0⟩ = none) : debugSave mode st v = st := by
  unfold debugSave
  rw [show hasGradient st.map ⟨v, 0⟩ = false from by rw [hasGradient, h]; rfl]
  simp

theorem debugSave_eq_debug_grad {st : PassState} {v : Nat} {g : NodeValue}
    (hg : mapGet st.map ⟨v, 0⟩ = some g) :
    debugSave .trainDebug st v =
      { store := (st.store ++
            [({ name := "_grad_" ++ nodeName st.store v, kind := .var false .broadcast,
                inputs := [], ty := nvTy st.store g } : GNode)]) ++
          [({ name := "_grad_" ++ nodeName st.store v, kind := .save,
              inputs := [g, ⟨st.store.length, 0⟩], ty := nvTy st.store g } : GNode)],
        map := st.map,
        toAppend := st.toAppend ++ [st.store.length + 1],
        newVars := st.newVars ++ [st.store.length],
        gradVarMap := st.gradVarMap ++ [(v, st.store.length)] } := by
  unfold debugSave
  rw [show hasGradient st.map ⟨v, 0⟩ = true from by rw [hasGradient, hg]; rfl]
  rw [show (CompilationMode.trainDebug == CompilationMode.trainDebug) = true from rfl]
  rw [show (true && true) = true from rfl]
  rw [if_pos rfl]
  rw [hg]
  unfold createSave
  dsimp only
  simp [createNode, List.length_append]

theorem varStep_not_training_eq (conf : TrainingConfig) (mode : CompilationMode)
    (st : PassState) (v : Nat)
    (h : isTraining (debugSave mode st v).store v = false) :
    varStep conf mode st v = .ok (debugSave mode st v) := by
  unfold varStep
  simp [h]

theorem varStep_training_eq (conf : TrainingConfig) (mode : CompilationMode)
    (st : PassState) (v : Nat) (g : NodeValue)
    (hT : isTraining (debugSave mode st v).store v = true)
    (hg : mapGet st.map ⟨v, 0⟩ = some g) :
    varStep conf mode st v = .ok
      { store := ((debugSave mode st v).store ++
            [({ name := "gsum", kind := .var false .broadcast, inputs := [],
                ty := if conf.momentum > 0 then nvTy (debugSave mode st v).store ⟨v, 0⟩
                      else voidTy } : GNode)]) ++
          [({ name := nodeName st.store v,
              kind := .sgd conf.L1Decay conf.L2Decay conf.learningRate conf.momentum
                conf.batchSize,
              inputs := [g, ⟨v, 0⟩, ⟨(debugSave mode st v).store.length, 0⟩],
              ty := nvTy st.store ⟨v, 0⟩ } : GNode)],
        map := (debugSave mode st v).map,
        toAppend := (debugSave mode st v).toAppend ++ [(debugSave mode st v).store.length + 1],
        newVars := (debugSave mode st v).newVars ++ [(debugSave mode st v).store.length],
        gradVarMap := (debugSave mode st v).gradVarMap } := by
  unfold varStep
  simp only [hT, Bool.not_true, Bool.false_eq_true, if_false]
  rw [show mapGet (createNode (debugSave mode st v)
      { name := "gsum", kind := .var false .broadcast, inputs := [],
        ty := if conf.momentum > 0 then nvTy (debugSave mode st v).store ⟨v, 0⟩
              else voidTy }).1.map ⟨v, 0⟩ = some g from by
    rw [createNode_fst_map, debugSave_map]
    exact hg]
  dsimp only
  simp [createNode, List.length_append]



/-! ### Claim C4 -/

/-- C4: for a trainable parameter, the synthesized "gsum" momentum accumulator
is a same-shaped auxiliary parameter when the momentum coefficient is positive
and the zero-sized placeholder type when it is not; the accumulator is the
variable staged last by the step. -/
theorem c4_momentum_accumulator (conf : TrainingConfig) (mode : CompilationMode)
    (st : PassState) (v : Nat) (vnode : GNode) (g : NodeValue) (ik : InitKind)
    (hv : st.store.get? v = some vnode) (hkind : vnode.kind = .var true ik)
    (hg : mapGet st.map ⟨v, 0⟩ = some g) :
    ∃ st' i gn, varStep conf mode st v = .ok st' ∧
      st'.newVars.getLast? = some i ∧ st'.store.get? i = some gn ∧
      gn.name = "gsum" ∧ gn.kind = .var false .broadcast ∧ gn.inputs = [] ∧
      gn.ty = (if conf.momentum > 0 then vnode.ty else voidTy) := by
  obtain ⟨e, he⟩ := debugSave_storeExt mode st v
  have hvd : (debugSave mode st v).store.get? v = some vnode := by
    rw [he]
    exact get?_append_left hv
  have hT : isTraining (debugSave mode st v).store v = true := isTraining_of_get hvd hkind
  refine ⟨_, (debugSave mode st v).store.length,
    { name := "gsum", kind := .var false .broadcast, inputs := [],
      ty := if conf.momentum > 0 then nvTy (debugSave mode st v).store ⟨v, 0⟩ else voidTy },
    varStep_training_eq conf mode st v g hT hg, List.getLast?_concat _, ?_, rfl, rfl, rfl, ?_⟩
  · rw [List.get?_append (by simp)]
    exact List.get?_concat_length _ _
  · dsimp only
    rw [nvTy_of_get hvd]

/-- A demonstration training configuration with zero momentum. -/
def conf0 : TrainingConfig :=
  { learningRate := 1, momentum := 0, L1Decay := 0, L2Decay := 0, batchSize := 1 }

/-- Demonstration state for C4: a single trainable parameter with a registered
gradient. -/
def c4State : PassState :=
  { store := [ { name := "W", kind := .var true .broadcast, inputs := [], ty := [3] } ],
    map := [(⟨0, 0⟩, ⟨0, 0⟩)], toAppend := [], newVars := [], gradVarMap := [] }

/-- Witness for C4 at the concrete state `c4State` with momentum 0. -/
theorem c4_witness :
    (c4State.store.get? 0 =
        some ({ name := "W", kind := NodeKind.var true InitKind.broadcast, inputs := [],
                ty := [3] } : GNode) ∧
      ({ name := "W", kind := NodeKind.var true InitKind.broadcast, inputs := [],
         ty := ([3] : Ty) } : GNode).kind = NodeKind.var true InitKind.broadcast ∧
      mapGet c4State.map ⟨0, 0⟩ = some ⟨0, 0⟩) ∧
    (∃ st' i gn,
      varStep conf0 .train c4State 0 = .ok st' ∧
      st'.newVars.getLast? = some i ∧ st'.store.get? i = some gn ∧
      gn.name = "gsum" ∧ gn.kind = .var false .broadcast ∧ gn.inputs = [] ∧
      gn.ty = (if (0 : Rat) > 0 then [3] else voidTy)) :=
  ⟨⟨by decide, rfl, by decide⟩,
    c4_momentum_accumulator conf0 .train c4State 0
      { name := "W", kind := NodeKind.var true InitKind.broadcast, inputs := [], ty := [3] }
      ⟨0, 0⟩ .broadcast (by decide) rfl (by decide)⟩

/-! ### Claim C6 -/

theorem varStep_training_missing (conf : TrainingConfig) (mode : CompilationMode)
    (st : PassState) (v : Nat)
    (hT : isTraining (debugSave mode st v).store v = true)
    (hg : mapGet st.map ⟨v, 0⟩ = none) :
    varStep conf mode st v = .error .missingGradient := by
  unfold varStep
  simp only [hT, Bool.not_true, Bool.false_eq_true, if_false]
  rw [show mapGet (createNode (debugSave mode st v)
      { name := "gsum", kind := .var false .broadcast, inputs := [],
        ty := if conf.momentum > 0 then nvTy (debugSave mode st v).store ⟨v, 0⟩
              else voidTy }).1.map ⟨v, 0⟩ = none from by
    rw [createNode_fst_map, debugSave_map]
    exact hg]

theorem varStep_ok_parts {conf : TrainingConfig} {mode : CompilationMode}
    {st : PassState} {v : Nat} {st' : PassState}
    (h : varStep conf mode st v = .ok st') :
    st'.gradVarMap = (debugSave mode st v).gradVarMap ∧
    (∃ e, st'.store = (debugSave mode st v).store ++ e) ∧
    (∃ e, st'.toAppend = (debugSave mode st v).toAppend ++ e) ∧
    (∃ e, st'.newVars = (debugSave mode st v).newVars ++ e) ∧
    st'.map = (debugSave mode st v).map := by
  cases hT : isTraining (debugSave mode st v).store v
  case false =>
    rw [varStep_not_training_eq conf mode st v hT] at h
    injection h with h
    subst h
    exact ⟨rfl, ⟨[], by simp⟩, ⟨[], by simp⟩, ⟨[], by simp⟩, rfl⟩
  case true =>
    cases hg : mapGet st.map ⟨v, 0⟩ with
    | none =>
      rw [varStep_training_missing conf mode st v hT hg] at h
      cases h
    | some g =>
      rw [varStep_training_eq conf mode st v g hT hg] at h
      injection h with h
      subst h
      exact ⟨rfl, ⟨_, List.append_assoc _ _ _⟩, ⟨_, rfl⟩, ⟨_, rfl⟩, rfl⟩


/-- C6: in TrainDebug mode every parameter with a registered gradient receives
a staged graph-output (save) node exposing that gradient, named "_grad_" +
name, and the parameter-to-gradient-variable mapping records the association,
independently of trainability; with no registered gradient, or in any other
mode, the step records no association and stages no save node. -/
theorem c6_debug_gradient_snapshots (conf : TrainingConfig) (st : PassState) (v : Nat) :
    (∀ g, mapGet st.map ⟨v, 0⟩ = some g →
      ∀ st', varStep conf .trainDebug st v = .ok st' →
        st'.gradVarMap = st.gradVarMap ++ [(v, st.store.length)] ∧
        st'.store.get? (st.store.length + 1) =
          some { name := "_grad_" ++ nodeName st.store v, kind := .save,
                 inputs := [g, ⟨st.store.length, 0⟩], ty := nvTy st.store g } ∧
        (st.store.length + 1) ∈ st'.toAppend ∧
        st'.store.get? st.store.length =
          some { name := "_grad_" ++ nodeName st.store v, kind := .var false .broadcast,
                 inputs := [], ty := nvTy st.store g } ∧
        st.store.length ∈ st'.newVars) ∧
    (∀ mode st', (mode ≠ .trainDebug ∨ mapGet st.map ⟨v, 0⟩ = none) →
      varStep conf mode st v = .ok st' →
        st'.gradVarMap = st.gradVarMap ∧
        (∀ x, x ∈ st'.toAppend → x ∉ st.toAppend →
          ∀ e, st'.store.get? x = some e → e.kind ≠ .save)) := by
  constructor
  · intro g hg st' h
    obtain ⟨hgv, ⟨e1, hs⟩, ⟨e2, ht⟩, ⟨e3, hn⟩, _⟩ := varStep_ok_parts h
    have heq := debugSave_eq_debug_grad hg
    rw [heq] at hgv hs ht hn
    dsimp only at hgv hs ht hn
    refine ⟨hgv, ?_, ?_, ?_, ?_⟩
    · rw [hs]
      apply get?_append_left
      rw [show st.store.length + 1 =
        (st.store ++ [({ name := "_grad_" ++ nodeName st.store v,
                         kind := .var false .broadcast, inputs := [],
                         ty := nvTy st.store g } : GNode)]).length from by simp]
      exact List.get?_concat_length _ _
    · rw [ht]
      simp
    · rw [hs]
      apply get?_append_left
      apply get?_append_left
      exact List.get?_concat_length _ _
    · rw [hn]
      simp
  · intro mode st' hcond h
    have hid : debugSave mode st v = st := by
      rcases hcond with hm | hgn
      · exact debugSave_id_not_debug st v hm
      · exact debugSave_id_no_grad mode st v hgn
    cases hT : isTraining st.store v
    case false =>
      rw [varStep_not_training_eq conf mode st v (by rw [hid]; exact hT), hid] at h
      injection h with h
      subst h
      exact ⟨rfl, fun x hx hnx e hge => absurd hx hnx⟩
    case true =>
      cases hg2 : mapGet st.map ⟨v, 0⟩ with
      | none =>
        rw [varStep_training_missing conf mode st v (by rw [hid]; exact hT) hg2] at h
        cases h
      | some g =>
        rw [varStep_training_eq conf mode st v g (by rw [hid]; exact hT) hg2, hid] at h
        injection h with h
        subst h
        refine ⟨rfl, ?_⟩
        intro x hx hnx e hge
        have hx2 : x = st.store.length + 1 := by
          rcases List.mem_append.1 hx with h1 | h1
          · exact absurd h1 hnx
          · simpa using h1
        subst hx2
        rw [show st.store.length + 1 =
          (st.store ++ [({ name := "gsum", kind := .var false .broadcast, inputs := [],
                           ty := if conf.momentum > 0 then nvTy st.store ⟨v, 0⟩
                                 else voidTy } : GNode)]).length from by simp] at hge
        rw [List.get?_concat_length] at hge
        injection hge with hge
        subst hge
        intro hc
        cases hc

/-- Demonstration state for C6: a non-trainable parameter with a registered
gradient. -/
def c6State : PassState :=
  { store := [ { name := "B", kind := .var false .broadcast, inputs := [], ty := [2] } ],
    map := [(⟨0, 0⟩, ⟨0, 0⟩)], toAppend := [], newVars := [], gradVarMap := [] }

/-- Witness for C6 at the concrete state `c6State` (conjunct one applied in
TrainDebug mode at the registered gradient, conjunct two applied in train
mode). -/
theorem c6_witness :
    ((∀ g, mapGet c6State.map ⟨0, 0⟩ = some g →
      ∀ st', varStep conf0 .trainDebug c6State 0 = .ok st' →
        st'.gradVarMap = c6State.gradVarMap ++ [(0, c6State.store.length)] ∧
        st'.store.get? (c6State.store.length + 1) =
          some { name := "_grad_" ++ nodeName c6State.store 0, kind := .save,
                 inputs := [g, ⟨c6State.store.length, 0⟩], ty := nvTy c6State.store g } ∧
        (c6State.store.length + 1) ∈ st'.toAppend ∧
        st'.store.get? c6State.store.length =
          some { name := "_grad_" ++ nodeName c6State.store 0, kind := .var false .broadcast,
                 inputs := [], ty := nvTy c6State.store g } ∧
        c6State.store.length ∈ st'.newVars) ∧
    (∀ mode st', (mode ≠ .trainDebug ∨ mapGet c6State.map ⟨0, 0⟩ = none) →
      varStep conf0 mode c6State 0 = .ok st' →
        st'.gradVarMap = c6State.gradVarMap ∧
        (∀ x, x ∈ st'.toAppend → x ∉ c6State.toAppend →
          ∀ e, st'.store.get? x = some e → e.kind ≠ .save))) :=
  c6_debug_gradient_snapshots conf0 c6State 0



/-! ### Claim C5 -/

/-- Whether a node is a stochastic-gradient-descent update node. -/
def isSGDNode (e : GNode) : Bool :=
  match e.kind with
  | .sgd _ _ _ _ _ => true
  | _ => false

/-- The number of update nodes in an arena. -/
def storeSGDCount (store : List GNode) : Nat :=
  store.countP isSGDNode

theorem nodeName_of_get {store : List GNode} {v : Nat} {vnode : GNode}
    (h : store.get? v = some vnode) : nodeName store v = vnode.name := by
  unfold nodeName
  rw [h]

theorem debugSave_cond_false {mode : CompilationMode} {st : PassState} {v : Nat}
    (h : ((mode == CompilationMode.trainDebug) && hasGradient st.map ⟨v, 0⟩) = false) :
    debugSave mode st v = st := by
  unfold debugSave
  rw [h]
  simp

theorem debugSave_sgd_count (mode : CompilationMode) (st : PassState) (v : Nat) :
    storeSGDCount (debugSave mode st v).store = storeSGDCount st.store := by
  cases hc : (mode == CompilationMode.trainDebug) && hasGradient st.map ⟨v, 0⟩ with
  | false => rw [debugSave_cond_false hc]
  | true =>
    rw [Bool.and_eq_true] at hc
    obtain ⟨hm, hgr⟩ := hc
    have hmode : mode = .trainDebug := by
      cases mode <;> simp_all
    subst hmode
    obtain ⟨g, hg⟩ : ∃ g, mapGet st.map ⟨v, 0⟩ = some g := by
      unfold hasGradient at hgr
      cases hx : mapGet st.map ⟨v, 0⟩ with
      | none => rw [hx] at hgr; cases hgr
      | some g => exact ⟨g, rfl⟩
    rw [debugSave_eq_debug_grad hg]
    simp [storeSGDCount, isSGDNode, List.countP_append, List.countP_cons]

/-- One update-synthesis step: it succeeds, preserves the gradient map, only
appends to the arena and the staging lists, creates exactly one update node
when the variable is trainable and none otherwise, and the created update
node is staged and bound to the registered gradient, the variable, the
accumulator, and the configuration hyperparameters. -/
theorem varStep_count (conf : TrainingConfig) (mode : CompilationMode) (st : PassState)
    (v : Nat) (vnode : GNode) (t : Bool) (ik : InitKind)
    (hv : st.store.get? v = some vnode) (hk : vnode.kind = .var t ik)
    (hgr : t = true → ∃ g, mapGet st.map ⟨v, 0⟩ = some g) :
    ∃ st', varStep conf mode st v = .ok st' ∧
      st'.map = st.map ∧
      (∃ e, st'.store = st.store ++ e) ∧
      (∃ e, st'.toAppend = st.toAppend ++ e) ∧
      (∃ e, st'.newVars = st.newVars ++ e) ∧
      storeSGDCount st'.store = storeSGDCount st.store + (if t then 1 else 0) ∧
      (t = true → ∃ x g gs, x ∈ st'.toAppend ∧ gs ∈ st'.newVars ∧
        mapGet st.map ⟨v, 0⟩ = some g ∧
        st'.store.get? x =
          some { name := nodeName st.store v,
                 kind := .sgd conf.L1Decay conf.L2Decay conf.learningRate conf.momentum
                   conf.batchSize,
                 inputs := [g, ⟨v, 0⟩, ⟨gs, 0⟩], ty := nvTy st.store ⟨v, 0⟩ }) := by
  obtain ⟨ed, hed⟩ := debugSave_storeExt mode st v
  have hvd : (debugSave mode st v).store.get? v = some vnode := by
    rw [hed]
    exact get?_append_left hv
  have hTd : isTraining (debugSave mode st v).store v = t := isTraining_of_get hvd hk
  cases t with
  | false =>
    refine ⟨_, varStep_not_training_eq conf mode st v hTd, debugSave_map mode st v,
      debugSave_storeExt mode st v, debugSave_toAppendExt mode st v,
      debugSave_newVarsExt mode st v, ?_, fun hc => by cases hc⟩
    rw [debugSave_sgd_count]
    simp
  | true =>
    obtain ⟨g, hg⟩ := hgr rfl
    refine ⟨_, varStep_training_eq conf mode st v g hTd hg, debugSave_map mode st v, ?_, ?_, ?_,
      ?_, ?_⟩
    · obtain ⟨e2, he2⟩ := debugSave_storeExt mode st v
      dsimp only
      rw [he2, List.append_assoc, List.append_assoc]
      exact ⟨_, rfl⟩
    · obtain ⟨e2, he2⟩ := debugSave_toAppendExt mode st v
      dsimp only
      rw [he2, List.append_assoc]
      exact ⟨_, rfl⟩
    · obtain ⟨e2, he2⟩ := debugSave_newVarsExt mode st v
      dsimp only
      rw [he2, List.append_assoc]
      exact ⟨_, rfl⟩
    · dsimp only
      rw [show storeSGDCount (((debugSave mode st v).store ++ _) ++ _) =
          storeSGDCount (debugSave mode st v).store + 0 + 1 from by
        rw [storeSGDCount, List.countP_append, List.countP_append]
        rfl]
      rw [debugSave_sgd_count]
      simp
    · intro _
      refine ⟨(debugSave mode st v).store.length + 1, g, (debugSave mode st v).store.length,
        ?_, ?_, hg, ?_⟩
      · dsimp only
        simp
      · dsimp only
        simp
      · dsimp only
        rw [show (debugSave mode st v).store.length + 1 =
          ((debugSave mode st v).store ++
            [({ name := "gsum", kind := .var false .broadcast, inputs := [],
                ty := if conf.momentum > 0 then nvTy (debugSave mode st v).store ⟨v, 0⟩
                      else voidTy } : GNode)]).length from by simp]
        exact List.get?_concat_length _ _

/-- Decidable readiness for update synthesis: every listed id is a variable
and, when trainable, has a registered gradient. -/
def updateReadyB (st : PassState) (vs : List Nat) : Bool :=
  vs.all fun v =>
    match st.store.get? v with
    | some vnode =>
      match vnode.kind with
      | .var t _ => !t || (mapGet st.map ⟨v, 0⟩).isSome
      | _ => false
    | none => false

theorem updateReadyB_spec {st : PassState} {vs : List Nat}
    (h : updateReadyB st vs = true) :
    ∀ v ∈ vs, ∃ vnode t ik, st.store.get? v = some vnode ∧ vnode.kind = .var t ik ∧
      (t = true → ∃ g, mapGet st.map ⟨v, 0⟩ = some g) := by
  intro v hv
  have h1 := (List.all_eq_true.1 h) v hv
  cases hget : st.store.get? v with
  | none => simp only [updateReadyB, hget] at h1; cases h1
  | some vnode =>
    simp only [updateReadyB, hget] at h1
    cases hk : vnode.kind <;> rw [hk] at h1
    case var t ik =>
      refine ⟨vnode, t, ik, rfl, hk, ?_⟩
      intro ht
      subst ht
      dsimp only at h1
      rw [Bool.not_true, Bool.false_or] at h1
      cases hx : mapGet st.map ⟨v, 0⟩ with
      | none => rw [hx] at h1; cases h1
      | some g => exact ⟨g, rfl⟩
    all_goals cases h1

/-- The full update-synthesis loop over a list of variables. -/
theorem updateSynthesis_count (conf : TrainingConfig) (mode : CompilationMode) :
    ∀ (vs : List Nat) (st : PassState),
      (∀ v ∈ vs, ∃ vnode t ik, st.store.get? v = some vnode ∧ vnode.kind = .var t ik ∧
        (t = true → ∃ g, mapGet st.map ⟨v, 0⟩ = some g)) →
      ∃ st', foldSteps (varStep conf mode) st vs = .ok st' ∧
        st'.map = st.map ∧
        (∃ e, st'.store = st.store ++ e) ∧
        (∃ e, st'.toAppend = st.toAppend ++ e) ∧
        (∃ e, st'.newVars = st.newVars ++ e) ∧
        storeSGDCount st'.store =
          storeSGDCount st.store + vs.countP (fun v => isTraining st.store v) ∧
        (∀ v ∈ vs, isTraining st.store v = true →
          ∃ x g gs, x ∈ st'.toAppend ∧ gs ∈ st'.newVars ∧
            mapGet st.map ⟨v, 0⟩ = some g ∧
            st'.store.get? x =
              some { name := nodeName st.store v,
                     kind := .sgd conf.L1Decay conf.L2Decay conf.learningRate conf.momentum
                       conf.batchSize,
                     inputs := [g, ⟨v, 0⟩, ⟨gs, 0⟩], ty := nvTy st.store ⟨v, 0⟩ }) := by
  intro vs
  induction vs with
  | nil =>
    intro st _
    exact ⟨st, rfl, rfl, ⟨[], by simp⟩, ⟨[], by simp⟩, ⟨[], by simp⟩, by simp, by simp⟩
  | cons v rest ih =>
    intro st hready
    obtain ⟨vnode, t, ik, hv, hk, hgr⟩ := hready v (by simp)
    obtain ⟨st1, hstep, hmap1, ⟨e1, hs1⟩, ⟨e2, ht1⟩, ⟨e3, hn1⟩, hcount1, hper1⟩ :=
      varStep_count conf mode st v vnode t ik hv hk hgr
    have hready1 : ∀ w ∈ rest, ∃ wnode t2 ik2, st1.store.get? w = some wnode ∧
        wnode.kind = .var t2 ik2 ∧ (t2 = true → ∃ g, mapGet st1.map ⟨w, 0⟩ = some g) := by
      intro w hw
      obtain ⟨wnode, t2, ik2, hw2, hk2, hg2⟩ := hready w (by simp [hw])
      exact ⟨wnode, t2, ik2, by rw [hs1]; exact get?_append_left hw2, hk2,
        fun ht => by rw [hmap1]; exact hg2 ht⟩
    obtain ⟨st', hfold, hmap', ⟨f1, hs'⟩, ⟨f2, ht'⟩, ⟨f3, hn'⟩, hcount', hper'⟩ := ih st1 hready1
    have hstable : ∀ w ∈ rest, isTraining st1.store w = isTraining st.store w := by
      intro w hw
      obtain ⟨wnode, t2, ik2, hw2, hk2, _⟩ := hready w (by simp [hw])
      rw [isTraining_of_get hw2 hk2, isTraining_of_get (by rw [hs1]; exact get?_append_left hw2) hk2]
    refine ⟨st', ?_, ?_, ?_, ?_, ?_, ?_, ?_⟩
    · simp only [foldSteps, hstep]
      exact hfold
    · rw [hmap', hmap1]
    · rw [hs', hs1, List.append_assoc]
      exact ⟨_, rfl⟩
    · rw [ht', ht1, List.append_assoc]
      exact ⟨_, rfl⟩
    · rw [hn', hn1, List.append_assoc]
      exact ⟨_, rfl⟩
    · have hcc : List.countP (fun v => isTraining st1.store v) rest =
          List.countP (fun v => isTraining st.store v) rest :=
        List.countP_congr (fun w hw => by rw [hstable w hw])
      rw [hcount', hcount1, List.countP_cons, hcc, isTraining_of_get hv hk]
      omega
    · intro w hw hT
      rcases (by simpa using hw : w = v ∨ w ∈ rest) with rfl | hw2
      · rw [isTraining_of_get hv hk] at hT
        obtain ⟨x, g, gs, hx, hgs, hmg, hget⟩ := hper1 hT
        refine ⟨x, g, gs, ?_, ?_, hmg, ?_⟩
        · rw [ht']
          exact List.mem_append.2 (Or.inl hx)
        · rw [hn']
          exact List.mem_append.2 (Or.inl hgs)
        · rw [hs']
          exact get?_append_left hget
      · have hT1 : isTraining st1.store w = true := by rw [hstable w hw2]; exact hT
        obtain ⟨x, g, gs, hx, hgs, hmg, hget⟩ := hper' w hw2 hT1
        obtain ⟨wnode, t2, ik2, hw2g, hk2, _⟩ := hready w (by simp [hw2])
        have hw1g : st1.store.get? w = some wnode := by
          rw [hs1]
          exact get?_append_left hw2g
        refine ⟨x, g, gs, hx, hgs, by rw [← hmap1]; exact hmg, ?_⟩
        rw [nodeName_of_get hw1g, ← nodeName_of_get hw2g] at hget
        rw [nvTy_of_get hw1g, ← nvTy_of_get hw2g] at hget
        exact hget

/-- C5: the update-synthesis loop creates exactly one update node per
trainable variable (counted in the arena) and zero for non-trainable ones,
each trainable variable receiving a staged update node bound to its
registered gradient, the variable itself, its accumulator, and the
configuration values; non-trainable variables are silently skipped (the loop
still succeeds). -/
theorem c5_update_coverage (conf : TrainingConfig) (mode : CompilationMode)
    (vs : List Nat) (st : PassState) (hready : updateReadyB st vs = true) :
    ∃ st', foldSteps (varStep conf mode) st vs = .ok st' ∧
      storeSGDCount st'.store =
        storeSGDCount st.store + vs.countP (fun v => isTraining st.store v) ∧
      (∀ v ∈ vs, isTraining st.store v = true →
        ∃ x g gs, x ∈ st'.toAppend ∧ gs ∈ st'.newVars ∧
          mapGet st.map ⟨v, 0⟩ = some g ∧
          st'.store.get? x =
            some { name := nodeName st.store v,
                   kind := .sgd conf.L1Decay conf.L2Decay conf.learningRate conf.momentum
                     conf.batchSize,
                   inputs := [g, ⟨v, 0⟩, ⟨gs, 0⟩], ty := nvTy st.store ⟨v, 0⟩ }) := by
  obtain ⟨st', h1, _, _, _, _, h2, h3⟩ :=
    updateSynthesis_count conf mode vs st (updateReadyB_spec hready)
  exact ⟨st', h1, h2, h3⟩

/-- Demonstration state for C5: variable 0 is trainable with a registered
gradient, variable 1 is not trainable. -/
def c5State : PassState :=
  { store :=
      [ { name := "A", kind := .var true .broadcast, inputs := [], ty := [2] },
        { name := "B", kind := .var false .broadcast, inputs := [], ty := [2] } ],
    map := [(⟨0, 0⟩, ⟨1, 0⟩)], toAppend := [], newVars := [], gradVarMap := [] }

/-- Witness for C5 at the concrete state `c5State` over variables [0, 1]. -/
theorem c5_witness :
    updateReadyB c5State [0, 1] = true ∧
    (∃ st', foldSteps (varStep conf0 .train) c5State [0, 1] = .ok st' ∧
      storeSGDCount st'.store =
        storeSGDCount c5State.store + [0, 1].countP (fun v => isTraining c5State.store v) ∧
      (∀ v ∈ [0, 1], isTraining c5State.store v = true →
        ∃ x g gs, x ∈ st'.toAppend ∧ gs ∈ st'.newVars ∧
          mapGet c5State.map ⟨v, 0⟩ = some g ∧
          st'.store.get? x =
            some { name := nodeName c5State.store v,
                   kind := .sgd conf0.L1Decay conf0.L2Decay conf0.learningRate conf0.momentum
                     conf0.batchSize,
                   inputs := [g, ⟨v, 0⟩, ⟨gs, 0⟩], ty := nvTy c5State.store ⟨v, 0⟩ })) :=
  ⟨by decide, c5_update_coverage conf0 .train [0, 1] c5State (by decide)⟩



/-! ### Claim C8 -/

/-- The sum of the extents along the given axis of the nodes referenced by a
list of value references. -/
def extentSum (store : List GNode) (dim : Nat) : List NodeValue → Nat
  | [] => 0
  | i :: rest => (nvTy store i).getD dim 0 + extentSum store dim rest

theorem extentSum_append (store : List GNode) (dim : Nat) :
    ∀ (a b : List NodeValue),
      extentSum store dim (a ++ b) = extentSum store dim a + extentSum store dim b := by
  intro a b
  induction a with
  | nil => simp [extentSum]
  | cons x a ih => simp [extentSum, ih, Nat.add_assoc]

theorem extentSum_take_succ (store : List GNode) (dim : Nat) (L : List NodeValue)
    (k : Nat) (hk : k < L.length) :
    extentSum store dim (L.take (k + 1)) =
      extentSum store dim (L.take k) + (nvTy store (L.get ⟨k, hk⟩)).getD dim 0 := by
  rw [List.take_succ, extentSum_append]
  congr 1
  rw [show L[k]? = some (L.get ⟨k, hk⟩) from by
    rw [← List.get?_eq_getElem?]
    exact List.get?_eq_get hk]
  simp [extentSum]

theorem nvTy_ext {store e : List GNode} {i : NodeValue} (h : i.node < store.length) :
    nvTy (store ++ e) i = nvTy store i := by
  unfold nvTy
  rw [List.get?_append h]

theorem setRep_getD_dim {ndims dim : Nat} (hdim : dim < ndims) (s : Nat) :
    ((List.replicate ndims 0).set dim s).getD dim 0 = s := by
  rw [List.getD_eq_getElem?_getD, ← List.get?_eq_getElem?,
    List.get?_set_eq_of_lt _ (by simpa using hdim)]
  rfl

theorem setRep_getD_other {ndims dim d2 : Nat} (hne : d2 ≠ dim) (s : Nat) :
    ((List.replicate ndims 0).set dim s).getD d2 0 = 0 := by
  rw [List.getD_eq_getElem?_getD, ← List.get?_eq_getElem?,
    List.get?_set_ne _ _ (fun h => hne h.symm), List.get?_eq_getElem?,
    List.getElem?_replicate]
  split <;> rfl

theorem concat_fold_slices (dim ndims : Nat) (og : NodeValue) (store0 : List GNode)
    (hdim : dim < ndims) :
    ∀ (L : List NodeValue) (acc : PassState × List Nat) (s : Nat),
      (∀ i ∈ L, i.node < store0.length) →
      (∃ e0, acc.1.store = store0 ++ e0) →
      acc.2 = (List.replicate ndims 0).set dim s →
      ∀ k (hk : k < L.length),
        ∃ x, ((L.foldl (concatStep dim og) acc).1).store.get? x =
          some { name := "extract",
                 kind := .slice ((List.replicate ndims 0).set dim
                   (s + extentSum store0 dim (L.take k))),
                 inputs := [og], ty := nvTy store0 (L.get ⟨k, hk⟩) } := by
  intro L
  induction L with
  | nil =>
    intro acc s _ _ _ k hk
    exact absurd hk (by simp)
  | cons i0 L ihL =>
    intro acc s hbound hext hoffs k hk
    obtain ⟨e0, hext⟩ := hext
    have hi0 : i0.node < store0.length := hbound i0 (by simp)
    have hnv : nvTy acc.1.store i0 = nvTy store0 i0 := by
      rw [hext]
      exact nvTy_ext hi0
    have hstep1 : (concatStep dim og acc i0).1 =
        addGradient (createNode acc.1
          { name := "extract", kind := .slice acc.2, inputs := [og],
            ty := nvTy acc.1.store i0 }).1 i0 ⟨acc.1.store.length, 0⟩ :=
      concatStep_fst dim og acc i0
    have hstep2 : (concatStep dim og acc i0).2 =
        acc.2.set dim (acc.2.getD dim 0 + (nvTy acc.1.store i0).getD dim 0) := rfl
    cases k with
    | zero =>
      refine ⟨acc.1.store.length, ?_⟩
      simp only [List.foldl_cons]
      obtain ⟨ef, hef⟩ := (concat_fold_evolves dim og L (concatStep dim og acc i0)).1
      rw [hef, hstep1]
      obtain ⟨ea, hea⟩ :=
        (addGradient_evolves (createNode acc.1
          { name := "extract", kind := .slice acc.2, inputs := [og],
            ty := nvTy acc.1.store i0 }).1 i0 ⟨acc.1.store.length, 0⟩).1
      rw [hea, createNode_fst_store]
      rw [show (i0 :: L).take 0 = ([] : List NodeValue) from rfl,
        show extentSum store0 dim [] = 0 from rfl, Nat.add_zero]
      rw [show (i0 :: L).get ⟨0, hk⟩ = i0 from rfl]
      rw [← hoffs, ← hnv]
      exact get?_append_left (get?_append_left (List.get?_concat_length _ _))
    | succ j =>
      have hb2 : ∀ i ∈ L, i.node < store0.length := fun i hi => hbound i (by simp [hi])
      have hext2 : ∃ e, (concatStep dim og acc i0).1.store = store0 ++ e := by
        rw [hstep1]
        obtain ⟨ea, hea⟩ := (addGradient_evolves _ _ _).1
        rw [hea, createNode_fst_store, hext, List.append_assoc, List.append_assoc]
        exact ⟨_, rfl⟩
      have hoffs2 : (concatStep dim og acc i0).2 =
          (List.replicate ndims 0).set dim (s + (nvTy store0 i0).getD dim 0) := by
        rw [hstep2, hoffs, hnv, setRep_getD_dim hdim, List.set_set]
      obtain ⟨x, hx⟩ := ihL (concatStep dim og acc i0) (s + (nvTy store0 i0).getD dim 0)
        hb2 hext2 hoffs2 j (by simpa using hk)
      refine ⟨x, ?_⟩
      simp only [List.foldl_cons]
      rw [show (i0 :: L).take (j + 1) = i0 :: L.take j from rfl]
      rw [show extentSum store0 dim (i0 :: L.take j) =
        (nvTy store0 i0).getD dim 0 + extentSum store0 dim (L.take j) from rfl]
      rw [← Nat.add_assoc]
      exact hx

/-- C8: the backward rule for a concatenation node creates one slice of the
output gradient per input, typed with that input's type, with start offsets
that are zero on every axis other than the concatenation axis and equal to
the running prefix sums 0, e1, e1+e2, ... of the input extents along the
concatenation axis; consecutive offsets differ exactly by the corresponding
extent (no gap, no overlap), and under the forward concat well-formedness
hypothesis the extents sum to the output's extent along that axis. -/
theorem c8_concat_partition (st : PassState) (n : Nat) (node : GNode) (dim : Nat)
    (og : NodeValue)
    (hget : st.store.get? n = some node) (hkind : node.kind = .concat dim)
    (hmap : mapGet st.map ⟨n, 0⟩ = some og) (hdim : dim < node.ty.length)
    (hin : ∀ i ∈ node.inputs, i.node < st.store.length)
    (hout : node.ty.getD dim 0 = extentSum st.store dim node.inputs) :
    ∃ st', stepNode st n = .ok st' ∧
      (∀ k (hk : k < node.inputs.length),
        ∃ x, st'.store.get? x =
          some { name := "extract",
                 kind := .slice ((List.replicate node.ty.length 0).set dim
                   (extentSum st.store dim (node.inputs.take k))),
                 inputs := [og], ty := nvTy st.store (node.inputs.get ⟨k, hk⟩) }) ∧
      (∀ k (hk : k < node.inputs.length),
        extentSum st.store dim (node.inputs.take (k + 1)) =
          extentSum st.store dim (node.inputs.take k) +
            (nvTy st.store (node.inputs.get ⟨k, hk⟩)).getD dim 0) ∧
      (∀ s, ((List.replicate node.ty.length 0).set dim s).getD dim 0 = s) ∧
      (∀ s d2, d2 ≠ dim → ((List.replicate node.ty.length 0).set dim s).getD d2 0 = 0) ∧
      extentSum st.store dim node.inputs = node.ty.getD dim 0 := by
  have hstep : stepNode st n =
      .ok ((node.inputs.foldl (concatStep dim og) (st, List.replicate node.ty.length 0)).1) := by
    unfold stepNode
    rw [hget]
    dsimp only
    rw [hkind]
    dsimp only
    rw [hmap]
  refine ⟨_, hstep, ?_, ?_, fun s => setRep_getD_dim hdim s,
    fun s d2 hne => setRep_getD_other hne s, hout.symm⟩
  · intro k hk
    obtain ⟨x, hx⟩ := concat_fold_slices dim node.ty.length og st.store hdim node.inputs
      (st, List.replicate node.ty.length 0) 0 hin ⟨[], by simp⟩
      (by rw [show (st, List.replicate node.ty.length 0).2 =
        List.replicate node.ty.length 0 from rfl, List.set_replicate_self]) k hk
    rw [Nat.zero_add] at hx
    exact ⟨x, hx⟩
  · intro k hk
    exact extentSum_take_succ st.store dim node.inputs k hk

/-- Demonstration state for C8: two inputs with extents 3 and 5 along axis 1,
concatenated into an output with extent 8 along axis 1. -/
def c8State : PassState :=
  { store :=
      [ { name := "A", kind := .var true .broadcast, inputs := [], ty := [2, 3] },
        { name := "B", kind := .var true .broadcast, inputs := [], ty := [2, 5] },
        { name := "cc", kind := .concat 1, inputs := [⟨0, 0⟩, ⟨1, 0⟩], ty := [2, 8] } ],
    map := [(⟨2, 0⟩, ⟨0, 0⟩)], toAppend := [], newVars := [], gradVarMap := [] }

/-- The concat node of the C8 demonstration state. -/
def c8Node : GNode :=
  { name := "cc", kind := .concat 1, inputs := [⟨0, 0⟩, ⟨1, 0⟩], ty := [2, 8] }

/-- Witness for C8 at the concrete state `c8State`. -/
theorem c8_witness :
    (c8State.store.get? 2 = some c8Node ∧ c8Node.kind = .concat 1 ∧
      mapGet c8State.map ⟨2, 0⟩ = some ⟨0, 0⟩ ∧ 1 < c8Node.ty.length ∧
      (∀ i ∈ c8Node.inputs, i.node < c8State.store.length) ∧
      c8Node.ty.getD 1 0 = extentSum c8State.store 1 c8Node.inputs) ∧
    (∃ st', stepNode c8State 2 = .ok st' ∧
      (∀ k (hk : k < c8Node.inputs.length),
        ∃ x, st'.store.get? x =
          some { name := "extract",
                 kind := .slice ((List.replicate c8Node.ty.length 0).set 1
                   (extentSum c8State.store 1 (c8Node.inputs.take k))),
                 inputs := [⟨0, 0⟩], ty := nvTy c8State.store (c8Node.inputs.get ⟨k, hk⟩) }) ∧
      (∀ k (hk : k < c8Node.inputs.length),
        extentSum c8State.store 1 (c8Node.inputs.take (k + 1)) =
          extentSum c8State.store 1 (c8Node.inputs.take k) +
            (nvTy c8State.store (c8Node.inputs.get ⟨k, hk⟩)).getD 1 0) ∧
      (∀ s, ((List.replicate c8Node.ty.length 0).set 1 s).getD 1 0 = s) ∧
      (∀ s d2, d2 ≠ 1 → ((List.replicate c8Node.ty.length 0).set 1 s).getD d2 0 = 0) ∧
      extentSum c8State.store 1 c8Node.inputs = c8Node.ty.getD 1 0) :=
  ⟨⟨by decide, rfl, by decide, by decide, by decide, by decide⟩,
    c8_concat_partition c8State 2 c8Node 1 ⟨0, 0⟩ (by decide) rfl (by decide) (by decide)
      (by decide) (by decide)⟩



/-! ### Claim C9 -/

theorem genericGetGrad_not_unsupported (st : PassState) (n : Nat) (node : GNode) :
    genericGetGrad st n node ≠ .error .unsupportedKind := by
  unfold genericGetGrad
  split <;> simp

theorem stepNode_unsupported {st : PassState} {n : Nat} {node : GNode}
    (hget : st.store.get? n = some node)
    (h : stepNode st n = .error .unsupportedKind) :
    isDiffKind node.kind = false ∧ isVarKind node.kind = false := by
  unfold stepNode at h
  rw [hget] at h
  dsimp only at h
  cases hk : node.kind <;> rw [hk] at h <;> (try dsimp only at h)
  case var => cases h
  case convolution => exact absurd h (genericGetGrad_not_unsupported st n node)
  case pool => exact absurd h (genericGetGrad_not_unsupported st n node)
  case fullyConnected => exact absurd h (genericGetGrad_not_unsupported st n node)
  case batchNormalization => exact absurd h (genericGetGrad_not_unsupported st n node)
  case localResponseNormalization => exact absurd h (genericGetGrad_not_unsupported st n node)
  case softMax => exact absurd h (genericGetGrad_not_unsupported st n node)
  case regression => exact absurd h (genericGetGrad_not_unsupported st n node)
  case arithmetic => exact absurd h (genericGetGrad_not_unsupported st n node)
  case relu => exact absurd h (genericGetGrad_not_unsupported st n node)
  case sigmoid => exact absurd h (genericGetGrad_not_unsupported st n node)
  case tanh => exact absurd h (genericGetGrad_not_unsupported st n node)
  case save =>
    split at h
    · cases h
    · cases h
  case reshape =>
    split at h
    · split at h
      · cases h
      · cases h
    · cases h
  case transpose =>
    split at h
    · split at h
      · cases h
      · cases h
    · cases h
  case slice =>
    split at h
    · split at h
      · cases h
      · cases h
    · cases h
  case concat =>
    split at h
    · cases h
    · cases h
  case zero => exact ⟨rfl, rfl⟩
  case insertTensor => exact ⟨rfl, rfl⟩
  case sgd => exact ⟨rfl, rfl⟩
  case genericGrad => exact ⟨rfl, rfl⟩
  case other => exact ⟨rfl, rfl⟩

/-- C9: a node whose operator kind is in the dispatcher's table is never
routed to the fatal unsupported-kind branch; a non-variable node of any other
kind always is; and the reverse sweep over a list of nodes whose kinds are
all either dispatched or variables can never end in the unsupported-kind
error. -/
theorem c9_dispatch_exhaustive :
    (∀ (st : PassState) (n : Nat) (node : GNode), st.store.get? n = some node →
      isDiffKind node.kind = true → stepNode st n ≠ .error .unsupportedKind) ∧
    (∀ (st : PassState) (n : Nat) (node : GNode), st.store.get? n = some node →
      isDiffKind node.kind = false → isVarKind node.kind = false →
      stepNode st n = .error .unsupportedKind) ∧
    (∀ (l : List Nat) (st : PassState),
      (∀ x ∈ l, x < st.store.length) →
      (∀ x ∈ l, ∀ node, st.store.get? x = some node →
        isDiffKind node.kind = true ∨ isVarKind node.kind = true) →
      foldSteps stepNode st l ≠ .error .unsupportedKind) := by
  refine ⟨?_, ?_, ?_⟩
  · intro st n node hget hdiff hcontra
    obtain ⟨h1, _⟩ := stepNode_unsupported hget hcontra
    rw [hdiff] at h1
    cases h1
  · intro st n node hget hdiff hvar
    unfold stepNode
    rw [hget]
    dsimp only
    cases hk : node.kind <;> rw [hk] at hdiff hvar <;>
      first
        | (cases hdiff; done)
        | (cases hvar; done)
        | rfl
  · intro l
    induction l with
    | nil =>
      intro st _ _
      simp [foldSteps]
    | cons x l ih =>
      intro st hb hkinds
      have hxlen := hb x (by simp)
      obtain ⟨node, hget⟩ : ∃ node, st.store.get? x = some node := by
        cases hg : st.store.get? x with
        | none => exact absurd (List.get?_eq_none.1 hg) (Nat.not_le_of_lt hxlen)
        | some node => exact ⟨node, rfl⟩
      simp only [foldSteps]
      cases hstep : stepNode st x with
      | error e =>
        intro hc
        injection hc with hc
        subst hc
        obtain ⟨h1, h2⟩ := stepNode_unsupported hget hstep
        rcases hkinds x (by simp) node hget with h3 | h3
        · rw [h3] at h1
          cases h1
        · rw [h3] at h2
          cases h2
      | ok st1 =>
        apply ih st1
        · intro y hy
          obtain ⟨e, he⟩ := (stepNode_ok_evolves hstep).1
          have := hb y (by simp [hy])
          rw [he, List.length_append]
          omega
        · intro y hy node2 hget2
          obtain ⟨e, he⟩ := (stepNode_ok_evolves hstep).1
          rw [he, List.get?_append (hb y (by simp [hy]))] at hget2
          exact hkinds y (by simp [hy]) node2 hget2

/-- Demonstration state for C9: node 0 has a dispatched kind, node 1 an
undispatched one. -/
def c9State : PassState :=
  { store :=
      [ { name := "r", kind := .relu, inputs := [], ty := [1] },
        { name := "q", kind := .other 7, inputs := [], ty := [1] } ],
    map := [(⟨0, 0⟩, ⟨0, 0⟩)], toAppend := [], newVars := [], gradVarMap := [] }

/-- Witness for C9 at the concrete state `c9State`. -/
theorem c9_witness :
    (c9State.store.get? 0 = some { name := "r", kind := .relu, inputs := [], ty := [1] } ∧
      isDiffKind NodeKind.relu = true ∧
      c9State.store.get? 1 = some { name := "q", kind := .other 7, inputs := [], ty := [1] } ∧
      isDiffKind (NodeKind.other 7) = false ∧ isVarKind (NodeKind.other 7) = false) ∧
    (stepNode c9State 0 ≠ .error .unsupportedKind ∧
      stepNode c9State 1 = .error .unsupportedKind ∧
      foldSteps stepNode c9State [0] ≠ .error .unsupportedKind) :=
  ⟨⟨by decide, rfl, by decide, rfl, rfl⟩,
    ⟨c9_dispatch_exhaustive.1 c9State 0
        { name := "r", kind := .relu, inputs := [], ty := [1] } (by decide) rfl,
      c9_dispatch_exhaustive.2.1 c9State 1
        { name := "q", kind := .other 7, inputs := [], ty := [1] } (by decide) rfl rfl,
      c9_dispatch_exhaustive.2.2 [0] c9State (by decide) (by
        intro x hx node hget
        rcases (by simpa using hx : x = 0) with rfl
        rw [show c9State.store.get? 0 =
          some { name := "r", kind := .relu, inputs := [], ty := [1] } from rfl] at hget
        injection hget with hget
        subst hget
        exact Or.inl rfl)⟩⟩

/-! ### Claim C10 -/

/-- C10: the pass behaves identically in inference and train mode: the
compilation mode is consulted only for the TrainDebug gradient snapshots, so
gradient generation and update synthesis happen even in inference mode and
produce exactly the same augmented graph. -/
theorem c10_inference_equals_train (G : Graph) (conf : TrainingConfig) :
    generateGradientNodes G conf .infer = generateGradientNodes G conf .train := by
  have hdbg : debugSave .infer = debugSave .train := by
    funext st v
    unfold debugSave
    rfl
  have hvar : varStep conf .infer = varStep conf .train := by
    funext st v
    unfold varStep
    rw [hdbg]
  unfold generateGradientNodes
  rw [hvar]

/-! ### Claim C3 -/

/-- Failing input for C3: two trainable parameters concatenated and saved. -/
def c3Graph : Graph :=
  { store :=
      [ { name := "A", kind := .var true .broadcast, inputs := [], ty := [2] },
        { name := "B", kind := .var true .broadcast, inputs := [], ty := [2] },
        { name := "out", kind := .var false .broadcast, inputs := [], ty := [4] },
        { name := "cc", kind := .concat 0, inputs := [⟨0, 0⟩, ⟨1, 0⟩], ty := [4] },
        { name := "sv", kind := .save, inputs := [⟨3, 0⟩, ⟨2, 0⟩], ty := [4] } ],
    nodes := [3, 4], vars := [0, 1, 2], gradVarMap := [] }

/-- C3 fails on the code: the `ConcatNode` case of the reverse sweep creates
its backward slice nodes (ids 6 and 7 on `c3Graph`) and registers them as
gradients, but unlike every other case never pushes them onto the staging
list, so after the commit they are absent from the graph's node collection
while a committed update node still references them. -/
theorem c3_concat_slices_never_appended :
    ∃ g, generateGradientNodes c3Graph conf0 .train = .ok g ∧
      (g.store.get? 6).map (fun e => e.kind) = some (.slice [0]) ∧
      (g.store.get? 7).map (fun e => e.kind) = some (.slice [2]) ∧
      6 ∉ g.nodes ∧ 7 ∉ g.nodes ∧ 6 ∉ g.vars ∧ 7 ∉ g.vars ∧
      (∃ s ∈ g.nodes, ∃ e, g.store.get? s = some e ∧ NodeValue.mk 6 0 ∈ e.inputs) := by
  refine ⟨_, rfl, ?_, ?_, ?_, ?_, ?_, ?_, ?_⟩ <;> decide


end Glow
